import Mathlib

/-!
# Keying-time estimator (`keyingtime.cpp`): a shallow embedding

The C++ class `KeyingTime` is embedded as a structure of its data members,
with its member functions as pure functions on that structure.

Modelling conventions

* `char` used as an array index: the arrays `fingerMap`, `setup` and `press`
  have `CHAR_MAX + 1` elements, so a character that indexes them is a value
  of `0 .. CHAR_MAX`.  `CHAR_MAX` is 127 (8-bit `char`, signed), and the
  character type of the embedding is `Fin (CHAR_MAX + 1)`.  Bytes that are
  not such a value are treated in the section on bytes as indices, where the
  signedness of `char` is a parameter.
* `int32_t` is embedded as `Int` with exact arithmetic (signed overflow is
  undefined behaviour in C++ and is outside the model).
* `std::array<T, N>` is a total function on `Fin N`; an assignment to one
  element is a pointwise update.
* a `const char*` string is the list of its characters; loops `while (*p)`
  stop at the first NUL or at the end of the list.
-/

namespace KeyingTimeModel

set_option maxRecDepth 1000000

/-! ## Types -/

/-- The constant `CHAR_MAX` of `<climits>` for an 8-bit signed `char` -/
abbrev CHAR_MAX : Nat := 127

/-- The constant `KeyingTime::MaxFingers` -/
abbrev MaxFingers : Nat := 10

/-- A `char` that is used as an index into an array of `CHAR_MAX + 1` elements -/
abbrev CChar : Type := Fin (CHAR_MAX + 1)

/-- A finger number: an index into an array of `MaxFingers` elements -/
abbrev Finger : Type := Fin MaxFingers

/-- A table `std::array<std::array<int32_t, CHAR_MAX + 1>, CHAR_MAX + 1>` -/
abbrev Table : Type := CChar → CChar → Int

/-- The character code of a character literal, as an index -/
def toCChar (c : Char) : CChar := ⟨c.toNat % (CHAR_MAX + 1), Nat.mod_lt _ (by decide)⟩

/-- The characters of a string literal (without the terminating NUL) -/
def cstr (s : String) : List CChar := s.toList.map toCChar

/-- The assignment `t[c1][c2] = v` on a two-dimensional table -/
def Table.set (t : Table) (c1 c2 : CChar) (v : Int) : Table :=
  fun a b => if a = c1 ∧ b = c2 then v else t a b

/-- A table with every element zero (the loops of lines 92-96 and 109-113) -/
def zeroTable : Table := fun _ _ => 0

/-- The data members of `class KeyingTime` (lines 56-66) -/
structure KeyingTime where
  /-- Member `fingerMap` -/
  fingerMap : CChar → Finger
  /-- Member `setup`: time to move a finger from c1 to c2 -/
  setup : Table
  /-- Member `press`: time to press c2 after c1 -/
  press : Table
  /-- Member `previousCharacters`: previous character typed by each finger -/
  previousCharacters : Finger → CChar
  /-- Member `previousTimes`: time of the previous keystroke of each finger -/
  previousTimes : Finger → Int
  /-- Member `time`: current time -/
  time : Int
  /-- Member `previous`: the previous character -/
  previous : CChar

/-! ## The fingering table and the constructor -/

/-- The static table `KeyingTime::fingering` (lines 169-181) -/
def fingering : Finger → List CChar :=
  ![cstr "qaz", cstr "wsx", cstr "edc", cstr "rfvtgb", cstr "L", cstr "R",
    cstr "yhnujm", cstr "ik,", cstr "ol.", cstr "p;/['"]

/-- The inner loop of the constructor (lines 79-82): `while (*p) fingerMap[*p++] = i` -/
def assignFinger (i : Finger) : List CChar → (CChar → Finger) → (CChar → Finger)
  | [], fm => fm
  | c :: p, fm => if c = 0 then fm else assignFinger i p (fun a => if a = c then i else fm a)

/-- The finger map built by the constructor `KeyingTime()` (lines 74-84) -/
def constructFingerMap : CChar → Finger :=
  (List.finRange MaxFingers).foldl (fun fm i => assignFinger i (fingering i) fm) (fun _ => 4)

/-- Member function `fingerNumber` (lines 69-71) -/
def KeyingTime.fingerNumber (k : KeyingTime) (c : CChar) : Finger := k.fingerMap c

/-! ## `initialize` -/

/-- The library function `strlen`: the number of characters before the first NUL -/
def strlen : List CChar → Nat
  | [] => 0
  | c :: s => if c = 0 then 0 else strlen s + 1

/-- The body of the loops over `i` and `j` in `initialize` (lines 118-128) -/
def setupPair (press : Table) (s : List CChar) (i j : Nat) (setup : Table) : Table :=
  if i = j then setup
  else
    let c1 := s.getD i 0
    let c2 := s.getD j 0
    let setup1 := setup.set c1 c2 (press c1 c2 - press c1 c1)
    if setup1 c1 c2 ≤ 0 then setup1.set c1 c2 1 else setup1

/-- The loops over `i` and `j` for one string `s` of `fingering` (lines 115-130) -/
def setupString (press : Table) (s : List CChar) (setup : Table) : Table :=
  let n := strlen s
  (List.range n).foldl
    (fun st i => (List.range n).foldl (fun st j => setupPair press s i j st) st) setup

/-- The derivation of `setup` from `press` in `initialize` (lines 109-131) -/
def deriveSetup (press : Table) : Table :=
  (List.finRange MaxFingers).foldl (fun st f => setupString press (fingering f) st) zeroTable

/-- The value given to `previousCharacters` by `initialize` (line 87) -/
def homeKeys : Finger → CChar :=
  ![toCChar 'a', toCChar 's', toCChar 'd', toCChar 'f', toCChar 'L', toCChar 'R',
    toCChar 'j', toCChar 'k', toCChar 'l', toCChar ';']

/-- A constructed object whose accumulator has been reset as `initialize` does
(lines 87-90), holding the tables `press` and `setup` -/
def freshState (press setup : Table) : KeyingTime :=
  { fingerMap := constructFingerMap
    setup := setup
    press := press
    previousCharacters := homeKeys
    previousTimes := fun _ => 0
    time := 0
    previous := toCChar 'l' }

/-- The object after a successful `initialize` (lines 86-133) whose reading loop
(lines 92-107) has left the table `press` -/
def initialized (press : Table) : KeyingTime :=
  freshState press (deriveSetup press)

/-! ## Feeding characters -/

/-- The replacement of a white space by `L`, the space bar pressed by the left
thumb, at the head of `operator<<(char)` (lines 136-138) -/
def canonicalize (c : CChar) : CChar :=
  if c = toCChar ' ' then toCChar 'L' else c

/-- The member `operator<<(char)` (lines 135-155) -/
def KeyingTime.feedChar (k : KeyingTime) (c : CChar) : KeyingTime :=
  let c := canonicalize c
  if k.press k.previous c = 0 then k
  else
    let f := k.fingerNumber c
    let time1 :=
      if k.previous ≠ k.previousCharacters f then
        let s := k.setup (k.previousCharacters f) c
        if k.time < k.previousTimes f + s then k.previousTimes f + s else k.time
      else k.time
    let time2 := time1 + k.press k.previous c
    { k with
      time := time2
      previousTimes := fun g => if g = f then time2 else k.previousTimes g
      previousCharacters := fun g => if g = f then c else k.previousCharacters g
      previous := c }

/-- The member `operator<<(const char*)` (lines 157-162) -/
def KeyingTime.feedString (k : KeyingTime) : List CChar → KeyingTime
  | [] => k
  | c :: s => if c = 0 then k else (k.feedChar c).feedString s

/-- The member `currentTime` (lines 164-166) -/
def KeyingTime.currentTime (k : KeyingTime) : Int := k.time

/-! ## Example tables -/

/-- A press table with non-negative entries: `lq = 7`, `qa = 30`, `qq = 20`,
`ls = 12`, `sq = 9`, every other entry zero -/
def pressSample : Table :=
  ((((zeroTable.set (toCChar 'l') (toCChar 'q') 7).set (toCChar 'q') (toCChar 'a') 30).set
    (toCChar 'q') (toCChar 'q') 20).set (toCChar 'l') (toCChar 's') 12).set
    (toCChar 's') (toCChar 'q') 9

/-- The press table of scenario A: `aa = 100`, `ab = 50`, `ba = 50`, `bb = 100`,
every other entry zero -/
def pressScenarioA : Table :=
  (((zeroTable.set (toCChar 'a') (toCChar 'a') 100).set (toCChar 'a') (toCChar 'b') 50).set
    (toCChar 'b') (toCChar 'a') 50).set (toCChar 'b') (toCChar 'b') 100

/-- The press table of scenario A with the further entry `la = 70` -/
def pressScenarioAMeasured : Table :=
  pressScenarioA.set (toCChar 'l') (toCChar 'a') 70

/-- The press table of scenario B: `qa = 30`, `qq = 20`, every other entry zero -/
def pressScenarioB : Table :=
  (zeroTable.set (toCChar 'q') (toCChar 'a') 30).set (toCChar 'q') (toCChar 'q') 20

/-! ## The cost of a fed string, after the specification -/

/-- The keystroke `c` is dropped: `press[previous][c]` is zero for the
canonicalized character -/
def KeyingTime.dropped (k : KeyingTime) (c : CChar) : Bool :=
  decide (k.press k.previous (canonicalize c) = 0)

/-- The cross-finger branch is taken for `c`: the character last typed by the
finger of `c` is not the global previous character -/
def KeyingTime.crossFinger (k : KeyingTime) (c : CChar) : Bool :=
  decide (k.previous ≠ k.previousCharacters (k.fingerNumber (canonicalize c)))

/-- The candidate time of the step for `c`:
`previousTimes[f] + setup[previousCharacters[f]][c]` -/
def KeyingTime.candidate (k : KeyingTime) (c : CChar) : Int :=
  k.previousTimes (k.fingerNumber (canonicalize c)) +
    k.setup (k.previousCharacters (k.fingerNumber (canonicalize c))) (canonicalize c)

/-- The setup delta of the step for `c`: `max(0, candidate - time)` when the
cross-finger branch is taken, 0 otherwise -/
def KeyingTime.setupDelta (k : KeyingTime) (c : CChar) : Int :=
  if k.crossFinger c then max 0 (k.candidate c - k.time) else 0

/-- The sum, over the keystrokes of a fed string that are not dropped, of
`press[previous][current]` plus the setup delta of the step -/
def KeyingTime.totalCost (k : KeyingTime) : List CChar → Int
  | [] => 0
  | c :: s =>
    if c = 0 then 0
    else
      (if k.dropped c then 0 else k.press k.previous (canonicalize c) + k.setupDelta c) +
        (k.feedChar c).totalCost s

/-- The sum, over the keystrokes of a fed string that are not dropped, of
`press[previous][current]` -/
def KeyingTime.pressCost (k : KeyingTime) : List CChar → Int
  | [] => 0
  | c :: s =>
    if c = 0 then 0
    else
      (if k.dropped c then 0 else k.press k.previous (canonicalize c)) +
        (k.feedChar c).pressCost s

/-- Setup is never the binding constraint along a fed string: at every step
that is not dropped and takes the cross-finger branch, `candidate <= time` -/
def KeyingTime.setupNeverBinding (k : KeyingTime) : List CChar → Bool
  | [] => true
  | c :: s =>
    if c = 0 then true
    else
      (k.dropped c || !k.crossFinger c || decide (k.candidate c ≤ k.time)) &&
        (k.feedChar c).setupNeverBinding s

/-- The value the derivation stores in `setup[c1][c2]` for a pair it visits:
`press[c1][c2] - press[c1][c1]` when that is positive, 1 otherwise -/
def setupValue (press : Table) (c1 c2 : CChar) : Int :=
  if 0 < press c1 c2 - press c1 c1 then press c1 c2 - press c1 c1 else 1

/-! ## `main`: feeding the standard input and the text arguments -/

/-- The loop of `main` over the standard input (lines 203-206):
`while (std::cin.get(c)) keyingTime << c` -/
def KeyingTime.feedChars (k : KeyingTime) (cs : List CChar) : KeyingTime :=
  cs.foldl KeyingTime.feedChar k

/-- The feeding of the text arguments in `main` (lines 208-211): `argv[2]`, then
a white space followed by `argv[i]` for every further argument -/
def KeyingTime.feedArguments (k : KeyingTime) : List (List CChar) → KeyingTime
  | [] => k
  | a :: rest =>
    rest.foldl (fun k b => (k.feedChar (toCChar ' ')).feedString b) (k.feedString a)

/-- The text arguments joined with a single white space between successive
arguments -/
def joinArguments (args : List (List CChar)) : List CChar :=
  List.intercalate [toCChar ' '] args

/-! ## The reading loop of `initialize`

The data source is the list of the characters of the file.  The formatted
extractions `stream >> c1 >> c2 >> time` follow the standard library: an
extraction on a stream whose `failbit` is set does nothing; otherwise white
space is skipped first, and reaching the end of the input there sets `failbit`
and leaves the variable as it was; a `char` extraction takes the next
character; an `int32_t` extraction takes an optional sign and the decimal
digits that follow, and stores 0 and sets `failbit` when there is no digit.

The variables `c1`, `c2` and `time` are declared in the loop body without an
initialiser.  The model keeps their content from one pass of the loop to the
next, and takes their content before the first pass as a parameter.
-/

/-- The input stream: the characters not yet extracted, and `failbit` -/
structure IStream where
  /-- The characters of the source that are not yet extracted -/
  rest : List CChar
  /-- The flag `failbit`; the test `while (stream)` is its negation -/
  fail : Bool

/-- The variables `c1`, `c2` and `time` of the body of the reading loop
(lines 103-104) -/
structure Locals where
  /-- Variable `c1` -/
  c1 : CChar
  /-- Variable `c2` -/
  c2 : CChar
  /-- Variable `time` -/
  time : Int

/-- The predicate `isspace` of the C locale: space, and `\t` to `\r` -/
def isSpace (c : CChar) : Bool :=
  decide (c = toCChar ' ') || (decide (9 ≤ c.val) && decide (c.val ≤ 13))

/-- The predicate `isdigit`: `0` to `9` -/
def isDigit (c : CChar) : Bool :=
  decide (48 ≤ c.val) && decide (c.val ≤ 57)

/-- The number written by a string of decimal digits -/
def decimalValue (ds : List CChar) : Nat :=
  ds.foldl (fun n d => 10 * n + (d.val - 48)) 0

/-- The largest `int32_t` -/
def INT32_MAX : Int := 2147483647

/-- The smallest `int32_t` -/
def INT32_MIN : Int := -2147483648

/-- The extraction `stream >> c` into a `char` variable holding `c` -/
def IStream.extractChar (s : IStream) (c : CChar) : IStream × CChar :=
  if s.fail then (s, c)
  else
    match s.rest.dropWhile isSpace with
    | [] => ({ rest := [], fail := true }, c)
    | x :: r => ({ rest := r, fail := false }, x)

/-- The extraction `stream >> v` into an `int32_t` variable holding `v` -/
def IStream.extractInt (s : IStream) (v : Int) : IStream × Int :=
  if s.fail then (s, v)
  else
    match s.rest.dropWhile isSpace with
    | [] => ({ rest := [], fail := true }, v)
    | x :: r =>
      let body := if x = toCChar '-' ∨ x = toCChar '+' then r else x :: r
      let digits := body.takeWhile isDigit
      let after := body.dropWhile isDigit
      if digits.isEmpty then ({ rest := after, fail := true }, 0)
      else
        let n : Int :=
          if x = toCChar '-' then -(decimalValue digits : Int) else (decimalValue digits : Int)
        if INT32_MAX < n then ({ rest := after, fail := true }, INT32_MAX)
        else if n < INT32_MIN then ({ rest := after, fail := true }, INT32_MIN)
        else ({ rest := after, fail := false }, n)

/-- One pass of the body of the reading loop (lines 103-106):
`stream >> c1 >> c2 >> time; press[c1][c2] = time` -/
def readRecord (s : IStream) (v : Locals) (press : Table) : IStream × Locals × Table :=
  let r1 := s.extractChar v.c1
  let r2 := r1.1.extractChar v.c2
  let r3 := r2.1.extractInt v.time
  (r3.1, { c1 := r1.2, c2 := r2.2, time := r3.2 }, press.set r1.2 r2.2 r3.2)

/-- The reading loop `while (stream)` (lines 102-107), for at most `n` passes -/
def readLoop : Nat → IStream → Locals → Table → IStream × Table
  | 0, s, _, press => (s, press)
  | n + 1, s, v, press =>
    if s.fail then (s, press)
    else readLoop n (readRecord s v press).1 (readRecord s v press).2.1 (readRecord s v press).2.2

/-- The table `press` after lines 92-107 on an opened source with the
characters `text`; `junk` is the content of `c1`, `c2`, `time` before the
first pass.  A pass that ends without `failbit` has extracted a character, so
`text.length + 1` passes reach the end of the loop -/
def readPress (junk : Locals) (text : List CChar) : Table :=
  (readLoop (text.length + 1) { rest := text, fail := false } junk zeroTable).2

/-- The member `initialize` (lines 86-133) called on the object `k`; `source`
is `none` when the file cannot be opened, and the characters of the file
otherwise.  The result is the returned `bool` and the object afterwards -/
def KeyingTime.initializeFrom (k : KeyingTime) (junk : Locals)
    (source : Option (List CChar)) : Bool × KeyingTime :=
  match source with
  | none =>
    (false,
      { k with
        previousCharacters := homeKeys
        previousTimes := fun _ => 0
        time := 0
        previous := toCChar 'l'
        press := zeroTable })
  | some text =>
    (true,
      { k with
        previousCharacters := homeKeys
        previousTimes := fun _ => 0
        time := 0
        previous := toCChar 'l'
        press := readPress junk text
        setup := deriveSetup (readPress junk text) })

/-! ## Bytes as indices

The source leaves to the platform whether `char` is signed, and with it the
value of `CHAR_MAX` and the number of elements of `fingerMap`, `press` and
`setup`.  The definitions of this section take the signedness of `char` and
the width of `size_t` as parameters; the tables of `CHAR_MAX + 1 = 128`
elements used in the rest of the file are those of a platform with a signed
`char`.
-/

/-- The constant `CHAR_MAX` of a platform whose `char` has 8 bits: 127 when
`char` is signed, 255 when it is unsigned -/
def charMaxOf (signedChar : Bool) : Nat := if signedChar then 127 else 255

/-- The value of the byte `b` held in a `char` of 8 bits -/
def charOfByte (signedChar : Bool) (b : Fin 256) : Int :=
  if signedChar = true ∧ 127 < b.val then (b.val : Int) - 256 else (b.val : Int)

/-- The conversion of a `char` to the index type `size_t` of `w` bits -/
def sizeOfChar (w : Nat) (c : Int) : Nat := (c % 2 ^ w).toNat

/-- The lookup `fingerMap[c]` of `fingerNumber` (line 70) for a `char` holding
the byte `b`, in a table `fingerMap` of `n` elements: defined when the index
is within the table -/
def fingerNumberOfByte (signedChar : Bool) (w : Nat) {n : Nat} (fingerMap : Fin n → Finger)
    (b : Fin 256) : Option Finger :=
  if h : sizeOfChar w (charOfByte signedChar b) < n then
    some (fingerMap ⟨sizeOfChar w (charOfByte signedChar b), h⟩)
  else none

/-! ## Well-formed sources -/

/-- A record of a keying time file: the two characters, and the decimal digits
of the time -/
structure Record where
  /-- The first character -/
  c1 : CChar
  /-- The second character -/
  c2 : CChar
  /-- The digits of the time -/
  digits : List CChar

/-- The record is well formed: its characters are not white space, and its
time is a non-empty string of digits that fits an `int32_t` -/
def Record.wellFormed (r : Record) : Bool :=
  !isSpace r.c1 && !isSpace r.c2 && !r.digits.isEmpty && r.digits.all isDigit &&
    decide ((decimalValue r.digits : Int) ≤ INT32_MAX)

/-- The line of a record, `[first character][second character] [time]`, with
its newline -/
def Record.line (r : Record) : List CChar :=
  r.c1 :: r.c2 :: toCChar ' ' :: (r.digits ++ [toCChar '\n'])

/-- The source that consists of the lines of the records `rs` -/
def sourceOf : List Record → List CChar
  | [] => []
  | r :: rs => r.line ++ sourceOf rs

/-- The time of the last record of `rs` that names the pair `(a, b)`, and 0
when no record names it -/
def lastTime : List Record → CChar → CChar → Int
  | [], _, _ => 0
  | r :: rs, a, b =>
    if rs.any (fun r' => decide (r'.c1 = a ∧ r'.c2 = b)) then lastTime rs a b
    else if r.c1 = a ∧ r.c2 = b then (decimalValue r.digits : Int)
    else 0

/-- The table `t` after the assignments `press[c1][c2] = time` of the records
`rs`, in their order -/
def storeRecords (t : Table) (rs : List Record) : Table :=
  rs.foldl (fun t r => t.set r.c1 r.c2 (decimalValue r.digits : Int)) t

/-! ## Basic facts about feeding -/

theorem feedChar_of_zero (k : KeyingTime) (c : CChar)
    (h : k.press k.previous (canonicalize c) = 0) : k.feedChar c = k := by
  simp only [KeyingTime.feedChar, if_pos h]

theorem feedChar_press (k : KeyingTime) (c : CChar) : (k.feedChar c).press = k.press := by
  by_cases h : k.press k.previous (canonicalize c) = 0
  · rw [feedChar_of_zero k c h]
  · simp only [KeyingTime.feedChar, if_neg h]

theorem feedChar_time_of_ne (k : KeyingTime) (c : CChar)
    (h : k.press k.previous (canonicalize c) ≠ 0) :
    (k.feedChar c).time =
      (if k.previous ≠ k.previousCharacters (k.fingerNumber (canonicalize c)) then
        (if k.time < k.previousTimes (k.fingerNumber (canonicalize c)) +
            k.setup (k.previousCharacters (k.fingerNumber (canonicalize c))) (canonicalize c)
         then k.previousTimes (k.fingerNumber (canonicalize c)) +
            k.setup (k.previousCharacters (k.fingerNumber (canonicalize c))) (canonicalize c)
         else k.time)
       else k.time) + k.press k.previous (canonicalize c) := by
  simp only [KeyingTime.feedChar, if_neg h]

theorem feedChar_setup (k : KeyingTime) (c : CChar) : (k.feedChar c).setup = k.setup := by
  by_cases h : k.press k.previous (canonicalize c) = 0
  · rw [feedChar_of_zero k c h]
  · simp only [KeyingTime.feedChar, if_neg h]

theorem feedChar_fingerMap (k : KeyingTime) (c : CChar) :
    (k.feedChar c).fingerMap = k.fingerMap := by
  by_cases h : k.press k.previous (canonicalize c) = 0
  · rw [feedChar_of_zero k c h]
  · simp only [KeyingTime.feedChar, if_neg h]

theorem feedChar_previous_of_ne (k : KeyingTime) (c : CChar)
    (h : k.press k.previous (canonicalize c) ≠ 0) :
    (k.feedChar c).previous = canonicalize c := by
  simp only [KeyingTime.feedChar, if_neg h]

theorem feedChar_previousCharacters_of_ne (k : KeyingTime) (c : CChar)
    (h : k.press k.previous (canonicalize c) ≠ 0) (g : Finger) :
    (k.feedChar c).previousCharacters g =
      if g = k.fingerNumber (canonicalize c) then canonicalize c
      else k.previousCharacters g := by
  simp only [KeyingTime.feedChar, if_neg h]

theorem feedChar_previousTimes_of_ne (k : KeyingTime) (c : CChar)
    (h : k.press k.previous (canonicalize c) ≠ 0) (g : Finger) :
    (k.feedChar c).previousTimes g =
      if g = k.fingerNumber (canonicalize c) then (k.feedChar c).time
      else k.previousTimes g := by
  simp only [KeyingTime.feedChar, if_neg h]

theorem feedChar_time_le (k : KeyingTime) (hpress : ∀ a b, 0 ≤ k.press a b) (c : CChar) :
    k.time ≤ (k.feedChar c).time := by
  have hp := hpress k.previous (canonicalize c)
  by_cases h : k.press k.previous (canonicalize c) = 0
  · rw [feedChar_of_zero k c h]
  · rw [feedChar_time_of_ne k c h]
    split_ifs <;> omega

theorem pressSample_nonneg (a b : CChar) : 0 ≤ pressSample a b := by
  unfold pressSample Table.set zeroTable
  split_ifs <;> decide

/-! ## The single-character step -/

/-- C1: when every entry of the press table is non-negative, feeding one
character never decreases the cumulative time, and along any fed string the
time after character `i + 1` is at least the time after character `i`. -/
theorem feedChar_monotone (k : KeyingTime) (hpress : ∀ a b, 0 ≤ k.press a b) :
    (∀ c, k.time ≤ (k.feedChar c).time) ∧
    (∀ (s : List CChar) (i : Nat),
      (k.feedString (s.take i)).time ≤ (k.feedString (s.take (i + 1))).time) := by
  refine ⟨feedChar_time_le k hpress, ?_⟩
  intro s
  induction s generalizing k with
  | nil => intro i; simp
  | cons c s ih =>
    intro i
    cases i with
    | zero =>
      simp only [List.take_zero, zero_add, List.take_succ_cons, KeyingTime.feedString]
      split
      · exact le_refl _
      · exact feedChar_time_le k hpress c
    | succ i =>
      simp only [List.take_succ_cons, KeyingTime.feedString]
      split
      · exact le_refl _
      · exact ih (k.feedChar c) (by rw [feedChar_press]; exact hpress) i

/-- Witness of C1 on the sample table: the hypothesis holds and feeding `q`
from the initialised state moves the time from 0 to 8. -/
theorem feedChar_monotone_witness :
    (∀ a b, 0 ≤ (initialized pressSample).press a b) ∧
    (initialized pressSample).time = 0 ∧
    ((initialized pressSample).feedChar (toCChar 'q')).time = 8 ∧
    (initialized pressSample).time ≤ ((initialized pressSample).feedChar (toCChar 'q')).time ∧
    ((initialized pressSample).feedString ((cstr "qa").take 1)).time ≤
      ((initialized pressSample).feedString ((cstr "qa").take (1 + 1))).time :=
  ⟨pressSample_nonneg, by decide, by decide,
    (feedChar_monotone (initialized pressSample) pressSample_nonneg).1 (toCChar 'q'),
    (feedChar_monotone (initialized pressSample) pressSample_nonneg).2 (cstr "qa") 1⟩

/-- C2: when `press[previous][c']` is non-zero for the canonicalized character
`c'`, with `f = fingerNumber(c')`, the new time is `T + press[previous][c']`
where `T` is `max(time, previousTimes[f] + setup[previousCharacters[f]][c'])`
if `previous != previousCharacters[f]` and `time` otherwise; finger `f` records
the new time and `c'`, `previous` becomes `c'`, and the records of every other
finger are unchanged. -/
theorem feedChar_accepted (k : KeyingTime) (c : CChar)
    (h : k.press k.previous (canonicalize c) ≠ 0) :
    (k.feedChar c).time =
      (if k.previous ≠ k.previousCharacters (k.fingerNumber (canonicalize c)) then
        max k.time (k.previousTimes (k.fingerNumber (canonicalize c)) +
          k.setup (k.previousCharacters (k.fingerNumber (canonicalize c))) (canonicalize c))
       else k.time) + k.press k.previous (canonicalize c) ∧
    (k.feedChar c).previousTimes (k.fingerNumber (canonicalize c)) = (k.feedChar c).time ∧
    (k.feedChar c).previousCharacters (k.fingerNumber (canonicalize c)) = canonicalize c ∧
    (k.feedChar c).previous = canonicalize c ∧
    ∀ g, g ≠ k.fingerNumber (canonicalize c) →
      (k.feedChar c).previousCharacters g = k.previousCharacters g ∧
      (k.feedChar c).previousTimes g = k.previousTimes g := by
  refine ⟨?_, ?_, ?_, ?_, ?_⟩
  · rw [feedChar_time_of_ne k c h]
    split_ifs with h1 h2
    · rw [max_eq_right (by omega)]
    · rw [max_eq_left (by omega)]
    · rfl
  · simp only [KeyingTime.feedChar, if_neg h, if_true]
  · simp only [KeyingTime.feedChar, if_neg h, if_true]
  · simp only [KeyingTime.feedChar, if_neg h]
  · intro g hg
    simp only [KeyingTime.feedChar, if_neg h, if_neg hg, and_self]

/-- Witness of C2: feeding `q` to the state initialised from the sample table. -/
theorem feedChar_accepted_witness :
    (initialized pressSample).press (initialized pressSample).previous
        (canonicalize (toCChar 'q')) ≠ 0 ∧
    ((initialized pressSample).feedChar (toCChar 'q')).time = 8 ∧
    ((initialized pressSample).feedChar (toCChar 'q')).previous = canonicalize (toCChar 'q') :=
  ⟨by decide, by decide,
    (feedChar_accepted (initialized pressSample) (toCChar 'q') (by decide)).2.2.2.1⟩

/-- C3: when `press[previous][c]` is zero for the canonicalized character `c`,
feeding it leaves the whole object unchanged. -/
theorem feedChar_unmeasured (k : KeyingTime) (c : CChar)
    (h : k.press k.previous (canonicalize c) = 0) : k.feedChar c = k := by
  unfold KeyingTime.feedChar
  simp only [if_pos h]

/-- Witness of C3: `a` is not measured after `l` in the sample table. -/
theorem feedChar_unmeasured_witness :
    (initialized pressSample).press (initialized pressSample).previous
        (canonicalize (toCChar 'a')) = 0 ∧
    (initialized pressSample).feedChar (toCChar 'a') = initialized pressSample :=
  ⟨by decide, feedChar_unmeasured (initialized pressSample) (toCChar 'a') (by decide)⟩

/-- C8: feeding a white space gives the same object as feeding `L`. -/
theorem feedChar_space (k : KeyingTime) :
    k.feedChar (toCChar ' ') = k.feedChar (toCChar 'L') := by
  have h1 : canonicalize (toCChar ' ') = toCChar 'L' := by decide
  have h2 : canonicalize (toCChar 'L') = toCChar 'L' := by decide
  unfold KeyingTime.feedChar
  simp only [h1, h2]

/-! ## Loops as folds -/

theorem foldl_preserves {α β : Type} (P : β → Prop) (g : β → α → β) (l : List α)
    (hpres : ∀ b x, x ∈ l → P b → P (g b x)) (b : β) (hb : P b) : P (l.foldl g b) := by
  induction l generalizing b with
  | nil => exact hb
  | cons x l ih =>
    rw [List.foldl_cons]
    apply ih
    · intro b y hy
      exact hpres b y (List.mem_cons_of_mem x hy)
    · exact hpres b x (List.mem_cons_self x l) hb

theorem foldl_establishes {α β : Type} (P : β → Prop) (g : β → α → β) (l : List α)
    (hpres : ∀ b x, P b → P (g b x)) (x0 : α) (hx0 : x0 ∈ l) (hest : ∀ b, P (g b x0))
    (b : β) : P (l.foldl g b) := by
  induction l generalizing b with
  | nil => cases hx0
  | cons x l ih =>
    rw [List.foldl_cons]
    rcases List.mem_cons.1 hx0 with h | h
    · subst h
      exact foldl_preserves P g l (fun b y _ hb => hpres b y hb) _ (hest b)
    · exact ih h _

/-! ## The derivation of the setup table -/

theorem Table.set_apply (t : Table) (c1 c2 : CChar) (v : Int) (a b : CChar) :
    t.set c1 c2 v a b = if a = c1 ∧ b = c2 then v else t a b := rfl

theorem setupPair_eq (press : Table) (s : List CChar) (i j : Nat) (t : Table) (hij : i ≠ j) :
    setupPair press s i j t =
      t.set (s.getD i 0) (s.getD j 0) (setupValue press (s.getD i 0) (s.getD j 0)) := by
  have hc : t.set (s.getD i 0) (s.getD j 0)
      (press (s.getD i 0) (s.getD j 0) - press (s.getD i 0) (s.getD i 0))
      (s.getD i 0) (s.getD j 0) =
      press (s.getD i 0) (s.getD j 0) - press (s.getD i 0) (s.getD i 0) := by
    rw [Table.set_apply, if_pos ⟨rfl, rfl⟩]
  unfold setupPair
  simp only [if_neg hij, hc]
  funext a b
  by_cases hv : press (s.getD i 0) (s.getD j 0) - press (s.getD i 0) (s.getD i 0) ≤ 0
  · simp only [if_pos hv, Table.set_apply, setupValue, if_neg (not_lt.2 hv)]
    split_ifs <;> rfl
  · simp only [if_neg hv, Table.set_apply, setupValue, if_pos (not_le.1 hv)]

theorem setupPair_apply (press : Table) (s : List CChar) (i j : Nat) (t : Table)
    (a b : CChar) :
    setupPair press s i j t a b =
      if i ≠ j ∧ a = s.getD i 0 ∧ b = s.getD j 0 then setupValue press a b else t a b := by
  by_cases hij : i = j
  · have h : setupPair press s i j t = t := by
      unfold setupPair
      simp only [if_pos hij]
    rw [h, if_neg (fun hh => hh.1 hij)]
  · rw [setupPair_eq press s i j t hij, Table.set_apply]
    by_cases hab : a = s.getD i 0 ∧ b = s.getD j 0
    · rw [if_pos hab, if_pos ⟨hij, hab⟩, hab.1, hab.2]
    · rw [if_neg hab, if_neg (fun hh => hab hh.2)]

theorem setupString_stable (press : Table) (s : List CChar) (t : Table) (a b : CChar)
    (h : t a b = setupValue press a b) : setupString press s t a b = setupValue press a b := by
  unfold setupString
  apply foldl_preserves (fun t : Table => t a b = setupValue press a b) _ _ _ _ h
  intro t i _ ht
  apply foldl_preserves (fun t : Table => t a b = setupValue press a b) _ _ _ _ ht
  intro t j _ ht
  show setupPair press s i j t a b = _
  rw [setupPair_apply]
  split_ifs
  · rfl
  · exact ht

theorem setupString_establish (press : Table) (s : List CChar) (t : Table) (i j : Nat)
    (hi : i < strlen s) (hj : j < strlen s) (hij : i ≠ j) :
    setupString press s t (s.getD i 0) (s.getD j 0) =
      setupValue press (s.getD i 0) (s.getD j 0) := by
  have hstep : ∀ (i' j' : Nat) (t : Table),
      t (s.getD i 0) (s.getD j 0) = setupValue press (s.getD i 0) (s.getD j 0) →
      setupPair press s i' j' t (s.getD i 0) (s.getD j 0) =
        setupValue press (s.getD i 0) (s.getD j 0) := by
    intro i' j' t ht
    rw [setupPair_apply]
    split_ifs
    · rfl
    · exact ht
  unfold setupString
  apply foldl_establishes
    (fun t : Table => t (s.getD i 0) (s.getD j 0) = setupValue press (s.getD i 0) (s.getD j 0))
    _ _ _ i (List.mem_range.2 hi)
  · intro t
    apply foldl_establishes
      (fun t : Table =>
        t (s.getD i 0) (s.getD j 0) = setupValue press (s.getD i 0) (s.getD j 0))
      _ _ _ j (List.mem_range.2 hj)
    · intro t
      show setupPair press s i j t (s.getD i 0) (s.getD j 0) = _
      rw [setupPair_apply, if_pos ⟨hij, rfl, rfl⟩]
    · intro t j' ht
      exact hstep i j' t ht
  · intro t i' ht
    exact foldl_preserves
      (fun t : Table =>
        t (s.getD i 0) (s.getD j 0) = setupValue press (s.getD i 0) (s.getD j 0))
      _ _ (fun t j' _ ht => hstep i' j' t ht) t ht

theorem setupString_frame (press : Table) (s : List CChar) (t : Table) (a b : CChar)
    (h : ∀ i j, i < strlen s → j < strlen s → i ≠ j → ¬ (a = s.getD i 0 ∧ b = s.getD j 0)) :
    setupString press s t a b = t a b := by
  unfold setupString
  apply foldl_preserves (fun t' : Table => t' a b = t a b) _ _ _ _ rfl
  intro t1 i hi ht1
  apply foldl_preserves (fun t' : Table => t' a b = t a b) _ _ _ _ ht1
  intro t2 j hj ht2
  show setupPair press s i j t2 a b = _
  rw [setupPair_apply, if_neg]
  · exact ht2
  · rintro ⟨hij, hab⟩
    exact h i j (List.mem_range.1 hi) (List.mem_range.1 hj) hij hab

theorem fingering_strlen : ∀ f, strlen (fingering f) = (fingering f).length := by decide

theorem fingering_nodup : ∀ f, (fingering f).Nodup := by decide

theorem deriveSetup_of_mem (press : Table) (f : Finger) (c1 c2 : CChar)
    (h1 : c1 ∈ fingering f) (h2 : c2 ∈ fingering f) (hne : c1 ≠ c2) :
    deriveSetup press c1 c2 = setupValue press c1 c2 := by
  obtain ⟨i, hi, hic⟩ := List.getElem_of_mem h1
  obtain ⟨j, hj, hjc⟩ := List.getElem_of_mem h2
  have e1 : (fingering f).getD i 0 = c1 := by rw [List.getD_eq_getElem _ _ hi]; exact hic
  have e2 : (fingering f).getD j 0 = c2 := by rw [List.getD_eq_getElem _ _ hj]; exact hjc
  have hij : i ≠ j := by
    rintro rfl
    exact hne (hic.symm.trans hjc)
  unfold deriveSetup
  apply foldl_establishes (fun t : Table => t c1 c2 = setupValue press c1 c2)
    _ _ _ f (List.mem_finRange f)
  · intro t
    show setupString press (fingering f) t c1 c2 = _
    rw [← e1, ← e2]
    apply setupString_establish
    · rw [fingering_strlen]; exact hi
    · rw [fingering_strlen]; exact hj
    · exact hij
  · intro t g ht
    exact setupString_stable press (fingering g) t c1 c2 ht

theorem deriveSetup_of_not_mem (press : Table) (c1 c2 : CChar)
    (h : c1 = c2 ∨ ∀ f, ¬ (c1 ∈ fingering f ∧ c2 ∈ fingering f)) :
    deriveSetup press c1 c2 = 0 := by
  unfold deriveSetup
  apply foldl_preserves (fun t : Table => t c1 c2 = 0) _ _ _ _ rfl
  intro t f _ ht
  show setupString press (fingering f) t c1 c2 = 0
  rw [setupString_frame, ht]
  intro i j hi hj hij hab
  rw [fingering_strlen] at hi hj
  rw [List.getD_eq_getElem _ _ hi, List.getD_eq_getElem _ _ hj] at hab
  rcases h with h | h
  · apply hij
    apply ((fingering_nodup f).getElem_inj_iff).1
    rw [← hab.1, ← hab.2, h]
  · apply h f
    rw [hab.1, hab.2]
    exact ⟨List.getElem_mem hi, List.getElem_mem hj⟩

theorem setupValue_pos (press : Table) (c1 c2 : CChar) : 0 < setupValue press c1 c2 := by
  unfold setupValue
  split_ifs <;> omega

theorem fingerMap_of_mem : ∀ f c, c ∈ fingering f → constructFingerMap c = f := by decide

theorem fingerMap_of_not_mem :
    ∀ c : CChar, (∀ f, c ∉ fingering f) → constructFingerMap c = 4 := by decide

theorem fingering_disjoint :
    ∀ f g, f ≠ g → ∀ c : CChar, c ∈ fingering f → c ∉ fingering g := by decide

/-! ## The setup table and the finger assignment -/

/-- C4: for two distinct characters of one string of the fingering table, the
setup entry derived by `initialize` is `press[c1][c2] - press[c1][c1]` when
that difference is positive and 1 otherwise, so it is strictly positive. -/
theorem setup_derivation (press : Table) (f : Finger) (c1 c2 : CChar)
    (h1 : c1 ∈ fingering f) (h2 : c2 ∈ fingering f) (hne : c1 ≠ c2) :
    (initialized press).setup c1 c2 =
      (if 0 < press c1 c2 - press c1 c1 then press c1 c2 - press c1 c1 else 1) ∧
    0 < (initialized press).setup c1 c2 := by
  have h : (initialized press).setup c1 c2 = setupValue press c1 c2 :=
    deriveSetup_of_mem press f c1 c2 h1 h2 hne
  refine ⟨h, ?_⟩
  rw [h]
  exact setupValue_pos press c1 c2

/-- Witness of C4: `q` and `a` in the string of finger 0, with `qa = 30` and
`qq = 20` in the sample table, give the setup entry 10. -/
theorem setup_derivation_witness :
    toCChar 'q' ∈ fingering 0 ∧ toCChar 'a' ∈ fingering 0 ∧ toCChar 'q' ≠ toCChar 'a' ∧
    (initialized pressSample).setup (toCChar 'q') (toCChar 'a') = 10 ∧
    0 < (initialized pressSample).setup (toCChar 'q') (toCChar 'a') :=
  ⟨by decide, by decide, by decide, by decide,
    (setup_derivation pressSample 0 (toCChar 'q') (toCChar 'a')
      (by decide) (by decide) (by decide)).2⟩

/-- C5 fails as stated: `1` and `2` occur in no fingering string, so the finger
map gives both the fallback finger 4; they are distinct and
`press['1']['2'] == press['1']['1']`, yet the derived `setup['1']['2']` is 0. -/
theorem clamp_fallback_counterexample :
    toCChar '1' ≠ toCChar '2' ∧
    (initialized pressSample).fingerNumber (toCChar '1') = 4 ∧
    (initialized pressSample).fingerNumber (toCChar '2') = 4 ∧
    pressSample (toCChar '1') (toCChar '2') = pressSample (toCChar '1') (toCChar '1') ∧
    (initialized pressSample).setup (toCChar '1') (toCChar '2') = 0 ∧
    (initialized pressSample).setup (toCChar '1') (toCChar '2') ≠ 1 := by
  decide

/-- C5 as amended: for two distinct characters with the same finger number
and `press[c1][c2] == press[c1][c1]`, the derived `setup[c1][c2]` is 1 when
both characters occur in the fingering table, and stays 0 when one of them has
its finger only by the fallback. -/
theorem clamp_same_finger (press : Table) (c1 c2 : CChar) (hne : c1 ≠ c2)
    (hf : (initialized press).fingerNumber c1 = (initialized press).fingerNumber c2)
    (hp : press c1 c2 = press c1 c1) :
    (initialized press).setup c1 c2 =
      if (∃ f, c1 ∈ fingering f) ∧ (∃ g, c2 ∈ fingering g) then 1 else 0 := by
  have hf' : constructFingerMap c1 = constructFingerMap c2 := hf
  show deriveSetup press c1 c2 = _
  by_cases h : (∃ f, c1 ∈ fingering f) ∧ (∃ g, c2 ∈ fingering g)
  · rw [if_pos h]
    obtain ⟨⟨f, h1⟩, ⟨g, h2⟩⟩ := h
    have hfg : f = g := by
      rw [← fingerMap_of_mem f c1 h1, ← fingerMap_of_mem g c2 h2]
      exact hf'
    subst hfg
    rw [deriveSetup_of_mem press f c1 c2 h1 h2 hne]
    unfold setupValue
    rw [if_neg (by omega)]
  · rw [if_neg h]
    apply deriveSetup_of_not_mem
    right
    intro f hh
    exact h ⟨⟨f, hh.1⟩, ⟨f, hh.2⟩⟩

/-- Witness of the amended C5: `w` and `s` share finger 1 and have no press
entry in the sample table, and the derived setup entry is 1. -/
theorem clamp_same_finger_witness :
    toCChar 'w' ≠ toCChar 's' ∧
    (initialized pressSample).fingerNumber (toCChar 'w') =
      (initialized pressSample).fingerNumber (toCChar 's') ∧
    pressSample (toCChar 'w') (toCChar 's') = pressSample (toCChar 'w') (toCChar 'w') ∧
    (initialized pressSample).setup (toCChar 'w') (toCChar 's') = 1 :=
  ⟨by decide, by decide, by decide,
    (clamp_same_finger pressSample (toCChar 'w') (toCChar 's')
      (by decide) (by decide) (by decide)).trans
      (if_pos ⟨⟨1, by decide⟩, ⟨1, by decide⟩⟩)⟩

/-- C6: the strings of the fingering table have no repeated character and are
pairwise disjoint; the constructed finger map sends every character of
`fingering[i]` to `i` and every other 7-bit character to the fallback 4. -/
theorem finger_assignment :
    (∀ f, (fingering f).Nodup) ∧
    (∀ f g, f ≠ g → ∀ c : CChar, c ∈ fingering f → c ∉ fingering g) ∧
    (∀ f c, c ∈ fingering f → constructFingerMap c = f) ∧
    (∀ c : CChar, (∀ f, c ∉ fingering f) → constructFingerMap c = 4) :=
  ⟨fingering_nodup, fingering_disjoint, fingerMap_of_mem, fingerMap_of_not_mem⟩

/-- Witness of C6: `g` is a character of `fingering[3]` and has finger 3; `1`
occurs in no string and has finger 4. -/
theorem finger_assignment_witness :
    toCChar 'g' ∈ fingering 3 ∧ constructFingerMap (toCChar 'g') = 3 ∧
    (∀ f, toCChar '1' ∉ fingering f) ∧ constructFingerMap (toCChar '1') = 4 :=
  ⟨by decide, finger_assignment.2.2.1 3 (toCChar 'g') (by decide), by decide,
    finger_assignment.2.2.2 (toCChar '1') (by decide)⟩

/-! ## The cost of a fed string -/

theorem feedChar_time_cost (k : KeyingTime) (c : CChar) :
    (k.feedChar c).time =
      k.time + (if k.dropped c then 0
        else k.press k.previous (canonicalize c) + k.setupDelta c) := by
  by_cases h : k.press k.previous (canonicalize c) = 0
  · rw [feedChar_of_zero k c h]
    simp [KeyingTime.dropped, h]
  · rw [feedChar_time_of_ne k c h]
    simp only [KeyingTime.dropped, KeyingTime.setupDelta, KeyingTime.crossFinger,
      KeyingTime.candidate, decide_eq_true_eq, if_neg h]
    split_ifs with h1 h2
    · rw [max_eq_right (by omega)]; omega
    · rw [max_eq_left (by omega)]; omega
    · omega

theorem feedString_time_cost (k : KeyingTime) (s : List CChar) :
    (k.feedString s).time = k.time + k.totalCost s := by
  induction s generalizing k with
  | nil => simp [KeyingTime.feedString, KeyingTime.totalCost]
  | cons c s ih =>
    unfold KeyingTime.feedString KeyingTime.totalCost
    by_cases hc : c = 0
    · simp [hc]
    · rw [if_neg hc, if_neg hc, ih, feedChar_time_cost, add_assoc]

theorem totalCost_eq_pressCost (k : KeyingTime) (s : List CChar)
    (h : k.setupNeverBinding s = true) : k.totalCost s = k.pressCost s := by
  induction s generalizing k with
  | nil => rfl
  | cons c s ih =>
    unfold KeyingTime.setupNeverBinding at h
    unfold KeyingTime.totalCost KeyingTime.pressCost
    split_ifs at h ⊢ with hc hd
    · rfl
    · rw [Bool.and_eq_true] at h
      rw [ih _ h.2]
    · rw [Bool.and_eq_true] at h
      rw [ih _ h.2]
      have h1 := h.1
      simp only [Bool.or_eq_true, hd, Bool.false_eq_true, false_or, Bool.not_eq_true',
        decide_eq_true_eq] at h1
      have hdelta : k.setupDelta c = 0 := by
        unfold KeyingTime.setupDelta
        rcases h1 with h1 | h1
        · simp [h1]
        · split_ifs
          · rw [max_eq_left (by omega)]
          · rfl
      rw [hdelta]; omega

/-- C7: from the freshly initialised state the final time is the sum, over the
keystrokes that are not dropped, of `press[previous][current]` plus the setup
delta of the step; when setup is never the binding constraint, it is the sum
of the `press[previous][current]` costs alone. -/
theorem cost_decomposition (press setup : Table) (s : List CChar) :
    ((freshState press setup).feedString s).time = (freshState press setup).totalCost s ∧
    ((freshState press setup).setupNeverBinding s = true →
      ((freshState press setup).feedString s).time = (freshState press setup).pressCost s) := by
  have h0 : (freshState press setup).time = 0 := rfl
  have h := feedString_time_cost (freshState press setup) s
  rw [h0, zero_add] at h
  refine ⟨h, fun hb => ?_⟩
  rw [h, totalCost_eq_pressCost _ _ hb]

/-- Witness of C7: feeding `sqa` after initialising from the sample table never
waits for a setup, and the time is `12 + 9 + 30`; feeding `qa` waits 1 for the
setup of `q`, and the time is `(7 + 1) + 30`. -/
theorem cost_decomposition_witness :
    (freshState pressSample (deriveSetup pressSample)).setupNeverBinding (cstr "sqa") = true ∧
    (freshState pressSample (deriveSetup pressSample)).pressCost (cstr "sqa") = 51 ∧
    ((freshState pressSample (deriveSetup pressSample)).feedString (cstr "sqa")).time =
      (freshState pressSample (deriveSetup pressSample)).pressCost (cstr "sqa") ∧
    (freshState pressSample (deriveSetup pressSample)).totalCost (cstr "qa") = 38 ∧
    ((freshState pressSample (deriveSetup pressSample)).feedString (cstr "qa")).time =
      (freshState pressSample (deriveSetup pressSample)).totalCost (cstr "qa") :=
  ⟨by decide, by decide,
    (cost_decomposition pressSample (deriveSetup pressSample) (cstr "sqa")).2 (by decide),
    by decide,
    (cost_decomposition pressSample (deriveSetup pressSample) (cstr "qa")).1⟩

/-! ## The two concrete scenarios -/

theorem feedString_two (k : KeyingTime) (x y : CChar) (hx : x ≠ 0) (hy : y ≠ 0) :
    k.feedString [x, y] = (k.feedChar x).feedChar y := by
  simp only [KeyingTime.feedString, if_neg hx, if_neg hy]

/-- C9 fails as stated: with exactly the entries `aa = 100`, `ab = 50`,
`ba = 50`, `bb = 100`, the characters `a` and `b` are on fingers 0 and 3 and
`l` is on finger 8, but `press['l']['a']` and `press['l']['b']` are zero, so
both keystrokes of `ab` are dropped: the time stays 0, not
`press['l']['a'] + press['a']['b'] = 50`. -/
theorem scenarioA_counterexample :
    (initialized pressScenarioA).fingerNumber (toCChar 'a') = 0 ∧
    (initialized pressScenarioA).fingerNumber (toCChar 'b') = 3 ∧
    (initialized pressScenarioA).fingerNumber (initialized pressScenarioA).previous = 8 ∧
    pressScenarioA (toCChar 'l') (toCChar 'a') + pressScenarioA (toCChar 'a') (toCChar 'b') = 50 ∧
    ((initialized pressScenarioA).feedString (cstr "ab")).time = 0 ∧
    ((initialized pressScenarioA).feedString (cstr "ab")).time ≠
      pressScenarioA (toCChar 'l') (toCChar 'a') + pressScenarioA (toCChar 'a') (toCChar 'b') := by
  decide

/-- C9 as amended: when the press table contains `aa = 100`, `ab = 50`,
`ba = 50`, `bb = 100`, `press['l']['a']` is non-zero and the derived
`setup['f']['b']` is at most `press['l']['a']`, feeding `ab` from the freshly
initialised state yields `press['l']['a'] + press['a']['b']`. -/
theorem scenarioA (press : Table)
    (_haa : press (toCChar 'a') (toCChar 'a') = 100)
    (hab : press (toCChar 'a') (toCChar 'b') = 50)
    (_hba : press (toCChar 'b') (toCChar 'a') = 50)
    (_hbb : press (toCChar 'b') (toCChar 'b') = 100)
    (hla : press (toCChar 'l') (toCChar 'a') ≠ 0)
    (hfb : (initialized press).setup (toCChar 'f') (toCChar 'b') ≤
      press (toCChar 'l') (toCChar 'a')) :
    ((initialized press).feedString (cstr "ab")).time =
      press (toCChar 'l') (toCChar 'a') + press (toCChar 'a') (toCChar 'b') := by
  have hstr : cstr "ab" = [toCChar 'a', toCChar 'b'] := by decide
  have hca : canonicalize (toCChar 'a') = toCChar 'a' := by decide
  have hcb : canonicalize (toCChar 'b') = toCChar 'b' := by decide
  have hfa : constructFingerMap (toCChar 'a') = 0 := by decide
  have hfb3 : constructFingerMap (toCChar 'b') = 3 := by decide
  have hsaa : deriveSetup press (toCChar 'a') (toCChar 'a') = 0 :=
    deriveSetup_of_not_mem press _ _ (Or.inl rfl)
  have hne1 : (initialized press).press (initialized press).previous
      (canonicalize (toCChar 'a')) ≠ 0 := by
    rw [hca]; exact hla
  have ht1 : ((initialized press).feedChar (toCChar 'a')).time =
      press (toCChar 'l') (toCChar 'a') := by
    rw [feedChar_time_of_ne _ _ hne1, hca]
    show (if toCChar 'l' ≠ homeKeys (constructFingerMap (toCChar 'a')) then
        (if (0 : Int) < 0 + deriveSetup press (homeKeys (constructFingerMap (toCChar 'a')))
            (toCChar 'a')
          then 0 + deriveSetup press (homeKeys (constructFingerMap (toCChar 'a'))) (toCChar 'a')
          else 0)
        else 0) + press (toCChar 'l') (toCChar 'a') = _
    rw [hfa, show homeKeys 0 = toCChar 'a' from by decide, hsaa]
    simp
  have hp1 : ((initialized press).feedChar (toCChar 'a')).previous = toCChar 'a' := by
    rw [feedChar_previous_of_ne _ _ hne1, hca]
  have hne2 : ((initialized press).feedChar (toCChar 'a')).press
      ((initialized press).feedChar (toCChar 'a')).previous (canonicalize (toCChar 'b')) ≠ 0 := by
    rw [feedChar_press, hp1, hcb]
    show press (toCChar 'a') (toCChar 'b') ≠ 0
    rw [hab]; decide
  have hfn : ((initialized press).feedChar (toCChar 'a')).fingerNumber (toCChar 'b') = 3 := by
    unfold KeyingTime.fingerNumber
    rw [feedChar_fingerMap]
    exact hfb3
  have hpc : ((initialized press).feedChar (toCChar 'a')).previousCharacters 3 = toCChar 'f' := by
    rw [feedChar_previousCharacters_of_ne _ _ hne1, hca]
    show (if (3 : Finger) = constructFingerMap (toCChar 'a') then toCChar 'a' else homeKeys 3) = _
    rw [hfa, if_neg (by decide)]
    decide
  have hpt : ((initialized press).feedChar (toCChar 'a')).previousTimes 3 = 0 := by
    rw [feedChar_previousTimes_of_ne _ _ hne1, hca]
    show (if (3 : Finger) = constructFingerMap (toCChar 'a') then _ else (0 : Int)) = _
    rw [hfa, if_neg (by decide)]
  rw [hstr, feedString_two _ _ _ (by decide) (by decide), feedChar_time_of_ne _ _ hne2, hcb,
    hfn, hpc, hpt, hp1, feedChar_setup, feedChar_press, ht1, zero_add,
    if_pos (show toCChar 'a' ≠ toCChar 'f' from by decide), if_neg (not_lt.2 hfb)]
  rfl

/-- Witness of the amended C9: the table of scenario A with `la = 70`; the
derived `setup['f']['b']` is 1 and the time after `ab` is `70 + 50`. -/
theorem scenarioA_witness :
    pressScenarioAMeasured (toCChar 'l') (toCChar 'a') ≠ 0 ∧
    (initialized pressScenarioAMeasured).setup (toCChar 'f') (toCChar 'b') = 1 ∧
    pressScenarioAMeasured (toCChar 'l') (toCChar 'a') +
      pressScenarioAMeasured (toCChar 'a') (toCChar 'b') = 120 ∧
    ((initialized pressScenarioAMeasured).feedString (cstr "ab")).time =
      pressScenarioAMeasured (toCChar 'l') (toCChar 'a') +
        pressScenarioAMeasured (toCChar 'a') (toCChar 'b') :=
  ⟨by decide, by decide, by decide,
    scenarioA pressScenarioAMeasured (by decide) (by decide) (by decide) (by decide)
      (by decide) (by decide)⟩

/-- C10 fails as stated: with exactly the entries `qa = 30` and `qq = 20`, the
derived `setup['q']['a']` is 10, but `press['l']['q']` and `press['l']['a']`
are zero, so both keystrokes of `qa` are dropped: the time stays 0, below
`press['l']['q'] + press['q']['a'] = 30`. -/
theorem scenarioB_counterexample :
    (initialized pressScenarioB).fingerNumber (toCChar 'q') = 0 ∧
    (initialized pressScenarioB).fingerNumber (toCChar 'a') = 0 ∧
    (initialized pressScenarioB).setup (toCChar 'q') (toCChar 'a') = 10 ∧
    pressScenarioB (toCChar 'l') (toCChar 'q') + pressScenarioB (toCChar 'q') (toCChar 'a') = 30 ∧
    ((initialized pressScenarioB).feedString (cstr "qa")).time = 0 ∧
    ¬ (pressScenarioB (toCChar 'l') (toCChar 'q') + pressScenarioB (toCChar 'q') (toCChar 'a') ≤
      ((initialized pressScenarioB).feedString (cstr "qa")).time) := by
  decide

/-- C10 as amended: when the press table contains `qa = 30` and `qq = 20` and
`press['l']['q']` is non-zero, the derived `setup['q']['a']` is 10 and feeding
`qa` from the freshly initialised state yields
`setup['a']['q'] + press['l']['q'] + press['q']['a']`, which is at least
`press['l']['q'] + press['q']['a']`: the setup delay is the one of the `q`
keystroke, taken from the home key `a` of finger 0, and `setup['q']['a']` is
not added, since `a` follows `q` on the same finger. -/
theorem scenarioB (press : Table)
    (hqa : press (toCChar 'q') (toCChar 'a') = 30)
    (hqq : press (toCChar 'q') (toCChar 'q') = 20)
    (hlq : press (toCChar 'l') (toCChar 'q') ≠ 0) :
    (initialized press).setup (toCChar 'q') (toCChar 'a') = 10 ∧
    ((initialized press).feedString (cstr "qa")).time =
      (initialized press).setup (toCChar 'a') (toCChar 'q') +
        press (toCChar 'l') (toCChar 'q') + press (toCChar 'q') (toCChar 'a') ∧
    press (toCChar 'l') (toCChar 'q') + press (toCChar 'q') (toCChar 'a') ≤
      ((initialized press).feedString (cstr "qa")).time := by
  have hstr : cstr "qa" = [toCChar 'q', toCChar 'a'] := by decide
  have hca : canonicalize (toCChar 'a') = toCChar 'a' := by decide
  have hcq : canonicalize (toCChar 'q') = toCChar 'q' := by decide
  have hfa : constructFingerMap (toCChar 'a') = 0 := by decide
  have hfq : constructFingerMap (toCChar 'q') = 0 := by decide
  have hsqa : deriveSetup press (toCChar 'q') (toCChar 'a') = 10 := by
    rw [deriveSetup_of_mem press 0 _ _ (by decide) (by decide) (by decide)]
    unfold setupValue
    rw [hqa, hqq]
    decide
  have hsaq : deriveSetup press (toCChar 'a') (toCChar 'q') =
      setupValue press (toCChar 'a') (toCChar 'q') :=
    deriveSetup_of_mem press 0 _ _ (by decide) (by decide) (by decide)
  have hpos : 0 < deriveSetup press (toCChar 'a') (toCChar 'q') := by
    rw [hsaq]; exact setupValue_pos press _ _
  have hne1 : (initialized press).press (initialized press).previous
      (canonicalize (toCChar 'q')) ≠ 0 := by
    rw [hcq]; exact hlq
  have ht1 : ((initialized press).feedChar (toCChar 'q')).time =
      deriveSetup press (toCChar 'a') (toCChar 'q') + press (toCChar 'l') (toCChar 'q') := by
    rw [feedChar_time_of_ne _ _ hne1, hcq]
    show (if toCChar 'l' ≠ homeKeys (constructFingerMap (toCChar 'q')) then
        (if (0 : Int) < 0 + deriveSetup press (homeKeys (constructFingerMap (toCChar 'q')))
            (toCChar 'q')
          then 0 + deriveSetup press (homeKeys (constructFingerMap (toCChar 'q'))) (toCChar 'q')
          else 0)
        else 0) + press (toCChar 'l') (toCChar 'q') = _
    rw [hfq, show homeKeys 0 = toCChar 'a' from by decide,
      if_pos (show toCChar 'l' ≠ toCChar 'a' from by decide), zero_add, if_pos hpos]
  have hp1 : ((initialized press).feedChar (toCChar 'q')).previous = toCChar 'q' := by
    rw [feedChar_previous_of_ne _ _ hne1, hcq]
  have hne2 : ((initialized press).feedChar (toCChar 'q')).press
      ((initialized press).feedChar (toCChar 'q')).previous (canonicalize (toCChar 'a')) ≠ 0 := by
    rw [feedChar_press, hp1, hca]
    show press (toCChar 'q') (toCChar 'a') ≠ 0
    rw [hqa]; decide
  have hfn : ((initialized press).feedChar (toCChar 'q')).fingerNumber (toCChar 'a') = 0 := by
    unfold KeyingTime.fingerNumber
    rw [feedChar_fingerMap]
    exact hfa
  have hpc : ((initialized press).feedChar (toCChar 'q')).previousCharacters 0 = toCChar 'q' := by
    rw [feedChar_previousCharacters_of_ne _ _ hne1, hcq]
    show (if (0 : Finger) = constructFingerMap (toCChar 'q') then toCChar 'q' else homeKeys 0) = _
    rw [hfq, if_pos rfl]
  have htime : ((initialized press).feedString (cstr "qa")).time =
      deriveSetup press (toCChar 'a') (toCChar 'q') +
        press (toCChar 'l') (toCChar 'q') + press (toCChar 'q') (toCChar 'a') := by
    rw [hstr, feedString_two _ _ _ (by decide) (by decide), feedChar_time_of_ne _ _ hne2, hca,
      hfn, hpc, hp1, feedChar_press, ht1, if_neg (fun h => h rfl)]
    rfl
  refine ⟨hsqa, htime, ?_⟩
  rw [htime]
  omega

/-- Witness of the amended C10: the sample table has `qa = 30`, `qq = 20` and
`lq = 7`; the derived `setup['a']['q']` is 1 and the time after `qa` is 38. -/
theorem scenarioB_witness :
    pressSample (toCChar 'l') (toCChar 'q') ≠ 0 ∧
    (initialized pressSample).setup (toCChar 'a') (toCChar 'q') = 1 ∧
    ((initialized pressSample).feedString (cstr "qa")).time = 38 ∧
    pressSample (toCChar 'l') (toCChar 'q') + pressSample (toCChar 'q') (toCChar 'a') ≤
      ((initialized pressSample).feedString (cstr "qa")).time :=
  ⟨by decide, by decide, by decide,
    (scenarioB pressSample (by decide) (by decide) (by decide)).2.2⟩

/-! ## Feeding a string is a fold of the single-character step -/

theorem feedString_eq_feedChars (k : KeyingTime) (s : List CChar) (hs : ∀ c ∈ s, c ≠ 0) :
    k.feedString s = k.feedChars s := by
  induction s generalizing k with
  | nil => rfl
  | cons c s ih =>
    have hc : c ≠ 0 := hs c (List.mem_cons_self c s)
    simp only [KeyingTime.feedString, if_neg hc, KeyingTime.feedChars, List.foldl_cons]
    exact ih _ (fun x hx => hs x (List.mem_cons_of_mem c hx))

theorem feedChars_append (k : KeyingTime) (s t : List CChar) :
    k.feedChars (s ++ t) = (k.feedChars s).feedChars t := by
  simp only [KeyingTime.feedChars, List.foldl_append]

theorem feedString_append (k : KeyingTime) (s t : List CChar) (hs : ∀ c ∈ s, c ≠ 0)
    (ht : ∀ c ∈ t, c ≠ 0) : k.feedString (s ++ t) = (k.feedString s).feedString t := by
  have hst : ∀ c ∈ s ++ t, c ≠ 0 := by
    intro c hc
    rcases List.mem_append.1 hc with h | h
    · exact hs c h
    · exact ht c h
  rw [feedString_eq_feedChars _ _ hst, feedString_eq_feedChars _ _ hs,
    feedString_eq_feedChars _ _ ht, feedChars_append]

theorem feedString_space_cons (k : KeyingTime) (s : List CChar) :
    k.feedString (toCChar ' ' :: s) = (k.feedChar (toCChar ' ')).feedString s := by
  have h : toCChar ' ' ≠ 0 := by decide
  simp only [KeyingTime.feedString, if_neg h]

theorem joinArguments_cons_cons (a b : List CChar) (rest : List (List CChar)) :
    joinArguments (a :: b :: rest) = a ++ (toCChar ' ' :: joinArguments (b :: rest)) := by
  simp [joinArguments, List.intercalate, List.intersperse]

theorem joinArguments_nul_free (args : List (List CChar))
    (h : ∀ a ∈ args, ∀ c ∈ a, c ≠ 0) : ∀ c ∈ joinArguments args, c ≠ 0 := by
  induction args with
  | nil => intro c hc; simp [joinArguments, List.intercalate] at hc
  | cons a rest ih =>
    cases rest with
    | nil =>
      intro c hc
      have : joinArguments [a] = a := by simp [joinArguments, List.intercalate]
      rw [this] at hc
      exact h a (List.mem_cons_self a []) c hc
    | cons b rest =>
      intro c hc
      rw [joinArguments_cons_cons] at hc
      rcases List.mem_append.1 hc with hc | hc
      · exact h a (List.mem_cons_self a _) c hc
      · rcases List.mem_cons.1 hc with hc | hc
        · rw [hc]; decide
        · exact ih (fun x hx => h x (List.mem_cons_of_mem a hx)) c hc

theorem feedArguments_eq (k : KeyingTime) (a : List CChar) (rest : List (List CChar))
    (h : ∀ x ∈ a :: rest, ∀ c ∈ x, c ≠ 0) :
    k.feedArguments (a :: rest) = k.feedString (joinArguments (a :: rest)) := by
  induction rest generalizing k a with
  | nil =>
    have : joinArguments [a] = a := by simp [joinArguments, List.intercalate]
    rw [this]
    rfl
  | cons b rest ih =>
    have ha : ∀ c ∈ a, c ≠ 0 := h a (List.mem_cons_self a _)
    have hrest : ∀ x ∈ b :: rest, ∀ c ∈ x, c ≠ 0 :=
      fun x hx => h x (List.mem_cons_of_mem a hx)
    have hj := joinArguments_nul_free (b :: rest) hrest
    have hsp : ∀ c ∈ toCChar ' ' :: joinArguments (b :: rest), c ≠ 0 := by
      intro c hc
      rcases List.mem_cons.1 hc with hc | hc
      · rw [hc]; decide
      · exact hj c hc
    rw [joinArguments_cons_cons, feedString_append _ _ _ ha hsp, feedString_space_cons,
      ← ih ((k.feedString a).feedChar (toCChar ' ')) b hrest]
    simp only [KeyingTime.feedArguments, List.foldl_cons]

/-- C11: on NUL-free strings `operator<<(const char*)` is the left-to-right
fold of `operator<<(char)`, so feeding `s ++ t` is feeding `s` and then `t`;
and feeding the text arguments as `main` does is feeding the arguments joined
with a single white space between successive arguments. -/
theorem feedString_fold (k : KeyingTime) (s t : List CChar) (a : List CChar)
    (rest : List (List CChar)) (hs : ∀ c ∈ s, c ≠ 0) (ht : ∀ c ∈ t, c ≠ 0)
    (hargs : ∀ x ∈ a :: rest, ∀ c ∈ x, c ≠ 0) :
    k.feedString s = s.foldl KeyingTime.feedChar k ∧
    k.feedString (s ++ t) = (k.feedString s).feedString t ∧
    k.feedArguments (a :: rest) = k.feedString (joinArguments (a :: rest)) :=
  ⟨feedString_eq_feedChars k s hs, feedString_append k s t hs ht, feedArguments_eq k a rest hargs⟩

/-- Witness of C11: the strings `sq` and `a`, and the arguments `sq`, `a`, on
the state initialised from the sample table; the joined text is `sq a`. -/
theorem feedString_fold_witness :
    (∀ c ∈ cstr "sq", c ≠ 0) ∧ (∀ c ∈ cstr "a", c ≠ 0) ∧
    joinArguments [cstr "sq", cstr "a"] = cstr "sq a" ∧
    ((initialized pressSample).feedString (cstr "sq" ++ cstr "a")).time = 51 ∧
    (initialized pressSample).feedString (cstr "sq" ++ cstr "a") =
      ((initialized pressSample).feedString (cstr "sq")).feedString (cstr "a") ∧
    (initialized pressSample).feedArguments [cstr "sq", cstr "a"] =
      (initialized pressSample).feedString (joinArguments [cstr "sq", cstr "a"]) :=
  ⟨by decide, by decide, by decide, by decide,
    (feedString_fold (initialized pressSample) (cstr "sq") (cstr "a") (cstr "sq") [cstr "a"]
      (by decide) (by decide) (by decide)).2.1,
    (feedString_fold (initialized pressSample) (cstr "sq") (cstr "a") (cstr "sq") [cstr "a"]
      (by decide) (by decide) (by decide)).2.2⟩

/-! ## Invariants of the states reached by feeding -/

theorem feedString_eq_feedChars_takeWhile (k : KeyingTime) (s : List CChar) :
    k.feedString s = k.feedChars (s.takeWhile (fun c => decide (c ≠ 0))) := by
  induction s generalizing k with
  | nil => rfl
  | cons c s ih =>
    by_cases hc : c = 0
    · simp [KeyingTime.feedString, KeyingTime.feedChars, hc]
    · simp only [KeyingTime.feedString, if_neg hc]
      rw [ih, List.takeWhile_cons_of_pos (by simpa using hc)]
      rfl

theorem feedChars_invariant (P : KeyingTime → Prop)
    (hstep : ∀ k c, P k → P (k.feedChar c)) (k : KeyingTime) (hk : P k) (cs : List CChar) :
    P (k.feedChars cs) :=
  foldl_preserves P KeyingTime.feedChar cs (fun b x _ hb => hstep b x hb) k hk

theorem homeKeys_finger : ∀ f, constructFingerMap (homeKeys f) = f := by decide

theorem feedChar_fingerNumber (k : KeyingTime) (c x : CChar) :
    (k.feedChar c).fingerNumber x = k.fingerNumber x := by
  unfold KeyingTime.fingerNumber
  rw [feedChar_fingerMap]

theorem feedChar_ownership (k : KeyingTime) (c : CChar)
    (h : ∀ f, k.fingerNumber (k.previousCharacters f) = f) :
    ∀ f, (k.feedChar c).fingerNumber ((k.feedChar c).previousCharacters f) = f := by
  intro f
  by_cases hz : k.press k.previous (canonicalize c) = 0
  · rw [feedChar_of_zero k c hz]; exact h f
  · rw [feedChar_fingerNumber, feedChar_previousCharacters_of_ne k c hz]
    split_ifs with hf
    · exact hf.symm
    · exact h f

theorem feedChar_lastTypist (k : KeyingTime) (c : CChar)
    (h : k.previousCharacters (k.fingerNumber k.previous) = k.previous ∧
      k.previousTimes (k.fingerNumber k.previous) = k.time) :
    (k.feedChar c).previousCharacters ((k.feedChar c).fingerNumber (k.feedChar c).previous) =
        (k.feedChar c).previous ∧
      (k.feedChar c).previousTimes ((k.feedChar c).fingerNumber (k.feedChar c).previous) =
        (k.feedChar c).time := by
  by_cases hz : k.press k.previous (canonicalize c) = 0
  · rw [feedChar_of_zero k c hz]; exact h
  · rw [feedChar_fingerNumber, feedChar_previous_of_ne k c hz,
      feedChar_previousCharacters_of_ne k c hz, feedChar_previousTimes_of_ne k c hz,
      if_pos rfl, if_pos rfl]
    exact ⟨rfl, rfl⟩

theorem feedChar_times_bounded (k : KeyingTime) (c : CChar)
    (hpress : ∀ a b, 0 ≤ k.press a b)
    (h : ∀ f, 0 ≤ k.previousTimes f ∧ k.previousTimes f ≤ k.time) :
    ∀ f, 0 ≤ (k.feedChar c).previousTimes f ∧
      (k.feedChar c).previousTimes f ≤ (k.feedChar c).time := by
  intro f
  have hle := feedChar_time_le k hpress c
  by_cases hz : k.press k.previous (canonicalize c) = 0
  · rw [feedChar_of_zero k c hz]; exact h f
  · rw [feedChar_previousTimes_of_ne k c hz]
    have h0 := h f
    split_ifs
    · exact ⟨by omega, le_refl _⟩
    · exact ⟨h0.1, by omega⟩

/-- C18: in the freshly initialised state and in every state reached from it
by feeding characters, the finger of the global previous character records
that character and the current time. -/
theorem last_typist_invariant (press setup : Table) (cs : List CChar) :
    (((freshState press setup).feedChars cs).previousCharacters
        (((freshState press setup).feedChars cs).fingerNumber
          ((freshState press setup).feedChars cs).previous) =
        ((freshState press setup).feedChars cs).previous ∧
      ((freshState press setup).feedChars cs).previousTimes
        (((freshState press setup).feedChars cs).fingerNumber
          ((freshState press setup).feedChars cs).previous) =
        ((freshState press setup).feedChars cs).time) ∧
    (((freshState press setup).feedString cs).previousCharacters
        (((freshState press setup).feedString cs).fingerNumber
          ((freshState press setup).feedString cs).previous) =
        ((freshState press setup).feedString cs).previous ∧
      ((freshState press setup).feedString cs).previousTimes
        (((freshState press setup).feedString cs).fingerNumber
          ((freshState press setup).feedString cs).previous) =
        ((freshState press setup).feedString cs).time) := by
  have h0 : (freshState press setup).previousCharacters
        ((freshState press setup).fingerNumber (freshState press setup).previous) =
        (freshState press setup).previous ∧
      (freshState press setup).previousTimes
        ((freshState press setup).fingerNumber (freshState press setup).previous) =
        (freshState press setup).time := by
    constructor
    · show homeKeys (constructFingerMap (toCChar 'l')) = toCChar 'l'
      decide
    · rfl
  have h := feedChars_invariant
    (fun k => k.previousCharacters (k.fingerNumber k.previous) = k.previous ∧
      k.previousTimes (k.fingerNumber k.previous) = k.time)
    feedChar_lastTypist (freshState press setup) h0
  refine ⟨h cs, ?_⟩
  rw [feedString_eq_feedChars_takeWhile]
  exact h _

/-- C19: in the freshly initialised state and in every state reached from it
by feeding characters, the last character recorded for each finger is a
character of that finger. -/
theorem ownership_invariant (press setup : Table) (cs : List CChar) (f : Finger) :
    ((freshState press setup).feedChars cs).fingerNumber
        (((freshState press setup).feedChars cs).previousCharacters f) = f ∧
    ((freshState press setup).feedString cs).fingerNumber
        (((freshState press setup).feedString cs).previousCharacters f) = f := by
  have h := feedChars_invariant
    (fun k => ∀ f, k.fingerNumber (k.previousCharacters f) = f)
    feedChar_ownership (freshState press setup) homeKeys_finger
  refine ⟨h cs f, ?_⟩
  rw [feedString_eq_feedChars_takeWhile]
  exact h _ f

/-- C16: in every state reached from the freshly initialised state by feeding
characters, and for every character `c` with `f = fingerNumber(c)`, the test
`previous != previousCharacters[f]` holds exactly when
`fingerNumber(previous) != f`. -/
theorem cross_finger_test (press setup : Table) (cs : List CChar) (c : CChar) :
    (((freshState press setup).feedChars cs).previous ≠
        ((freshState press setup).feedChars cs).previousCharacters
          (((freshState press setup).feedChars cs).fingerNumber c) ↔
      ((freshState press setup).feedChars cs).fingerNumber
          ((freshState press setup).feedChars cs).previous ≠
        ((freshState press setup).feedChars cs).fingerNumber c) ∧
    (((freshState press setup).feedString cs).previous ≠
        ((freshState press setup).feedString cs).previousCharacters
          (((freshState press setup).feedString cs).fingerNumber c) ↔
      ((freshState press setup).feedString cs).fingerNumber
          ((freshState press setup).feedString cs).previous ≠
        ((freshState press setup).feedString cs).fingerNumber c) := by
  have h := feedChars_invariant
    (fun k => (∀ f, k.fingerNumber (k.previousCharacters f) = f) ∧
      k.previousCharacters (k.fingerNumber k.previous) = k.previous)
    (fun k c hk => ⟨feedChar_ownership k c hk.1, by
      by_cases hz : k.press k.previous (canonicalize c) = 0
      · rw [feedChar_of_zero k c hz]; exact hk.2
      · rw [feedChar_fingerNumber, feedChar_previous_of_ne k c hz,
          feedChar_previousCharacters_of_ne k c hz, if_pos rfl]⟩)
    (freshState press setup)
    ⟨homeKeys_finger, show homeKeys (constructFingerMap (toCChar 'l')) = toCChar 'l' by decide⟩
  have key : ∀ k : KeyingTime, ((∀ f, k.fingerNumber (k.previousCharacters f) = f) ∧
      k.previousCharacters (k.fingerNumber k.previous) = k.previous) →
      (k.previous ≠ k.previousCharacters (k.fingerNumber c) ↔
        k.fingerNumber k.previous ≠ k.fingerNumber c) := by
    intro k hk
    constructor
    · intro hne heq
      apply hne
      rw [← heq, hk.2]
    · intro hne heq
      apply hne
      rw [heq, hk.1]
  refine ⟨key _ (h cs), ?_⟩
  rw [feedString_eq_feedChars_takeWhile]
  exact key _ (h _)

theorem feedChars_press (k : KeyingTime) (cs : List CChar) : (k.feedChars cs).press = k.press :=
  feedChars_invariant (fun k' => k'.press = k.press)
    (fun k' c h => (feedChar_press k' c).trans h) k rfl cs

theorem feedChars_fingerMap (k : KeyingTime) (cs : List CChar) :
    (k.feedChars cs).fingerMap = k.fingerMap :=
  feedChars_invariant (fun k' => k'.fingerMap = k.fingerMap)
    (fun k' c h => (feedChar_fingerMap k' c).trans h) k rfl cs

theorem feedChars_times_bounded (k : KeyingTime) (hpress : ∀ a b, 0 ≤ k.press a b)
    (h : ∀ f, 0 ≤ k.previousTimes f ∧ k.previousTimes f ≤ k.time) (cs : List CChar) :
    ∀ f, 0 ≤ (k.feedChars cs).previousTimes f ∧
      (k.feedChars cs).previousTimes f ≤ (k.feedChars cs).time :=
  (feedChars_invariant
    (fun k' => k'.press = k.press ∧
      ∀ f, 0 ≤ k'.previousTimes f ∧ k'.previousTimes f ≤ k'.time)
    (fun k' c hk' => ⟨(feedChar_press k' c).trans hk'.1,
      feedChar_times_bounded k' c (by rw [hk'.1]; exact hpress) hk'.2⟩)
    k ⟨rfl, h⟩ cs).2

/-- C20: when every entry of the press table is non-negative, in the freshly
initialised state and in every state reached from it by feeding characters,
`previousTimes[f]` lies between 0 and the current time for every finger. -/
theorem times_bounded_invariant (press setup : Table) (hpress : ∀ a b, 0 ≤ press a b)
    (cs : List CChar) (f : Finger) :
    (0 ≤ ((freshState press setup).feedChars cs).previousTimes f ∧
      ((freshState press setup).feedChars cs).previousTimes f ≤
        ((freshState press setup).feedChars cs).time) ∧
    (0 ≤ ((freshState press setup).feedString cs).previousTimes f ∧
      ((freshState press setup).feedString cs).previousTimes f ≤
        ((freshState press setup).feedString cs).time) := by
  have h0 : ∀ f, 0 ≤ (freshState press setup).previousTimes f ∧
      (freshState press setup).previousTimes f ≤ (freshState press setup).time :=
    fun _ => ⟨le_refl _, le_refl _⟩
  refine ⟨feedChars_times_bounded _ hpress h0 cs f, ?_⟩
  rw [feedString_eq_feedChars_takeWhile]
  exact feedChars_times_bounded _ hpress h0 _ f

/-- Witness of C20: after `sqa` on the state initialised from the sample table
finger 0 finished at 51, the current time, and finger 1 at 12. -/
theorem times_bounded_invariant_witness :
    ((freshState pressSample (deriveSetup pressSample)).feedChars (cstr "sqa")).time = 51 ∧
    ((freshState pressSample (deriveSetup pressSample)).feedChars (cstr "sqa")).previousTimes 1
      = 12 ∧
    (0 ≤ ((freshState pressSample (deriveSetup pressSample)).feedChars
        (cstr "sqa")).previousTimes 1 ∧
      ((freshState pressSample (deriveSetup pressSample)).feedChars
        (cstr "sqa")).previousTimes 1 ≤
        ((freshState pressSample (deriveSetup pressSample)).feedChars (cstr "sqa")).time) :=
  ⟨by decide, by decide,
    (times_bounded_invariant pressSample (deriveSetup pressSample) pressSample_nonneg
      (cstr "sqa") 1).1⟩

/-! ## Runs of one finger -/

theorem feedChar_previous_eq_record (k : KeyingTime) (x : CChar)
    (hx : k.press k.previous (canonicalize x) ≠ 0) :
    (k.feedChar x).previous =
      (k.feedChar x).previousCharacters (k.fingerNumber (canonicalize x)) := by
  rw [feedChar_previous_of_ne k x hx, feedChar_previousCharacters_of_ne k x hx, if_pos rfl]

theorem feedChars_same_finger (k : KeyingTime) (f : Finger) (cs : List CChar)
    (hk : k.previous = k.previousCharacters f)
    (hcs : ∀ y ∈ cs, k.fingerNumber (canonicalize y) = f) :
    (k.feedChars cs).previous = (k.feedChars cs).previousCharacters f := by
  have h := foldl_preserves
    (fun k' : KeyingTime => k'.fingerMap = k.fingerMap ∧ k'.previous = k'.previousCharacters f)
    KeyingTime.feedChar cs
    (fun k' y hy hk' => by
      refine ⟨(feedChar_fingerMap k' y).trans hk'.1, ?_⟩
      show (k'.feedChar y).previous = (k'.feedChar y).previousCharacters f
      by_cases hz : k'.press k'.previous (canonicalize y) = 0
      · rw [feedChar_of_zero k' y hz]; exact hk'.2
      · have hf : k'.fingerNumber (canonicalize y) = f := by
          have := hcs y hy
          unfold KeyingTime.fingerNumber at this ⊢
          rw [hk'.1]; exact this
        rw [← hf]
        exact feedChar_previous_eq_record k' y hz)
    k ⟨rfl, hk⟩
  exact h.2

theorem feedChar_time_same_finger (k : KeyingTime) (c : CChar)
    (hk : k.previous = k.previousCharacters (k.fingerNumber (canonicalize c)))
    (hc : k.press k.previous (canonicalize c) ≠ 0) :
    (k.feedChar c).time = k.time + k.press k.previous (canonicalize c) := by
  rw [feedChar_time_of_ne k c hc, if_neg (fun h => h hk)]

/-- C17: in a run of characters that all map to one finger `f`, fed in a state
reached from the freshly initialised state, a keystroke `c` that is not dropped
and comes after a keystroke `x` of the run that was not dropped adds exactly
`press[previous][c]` to the time, and the cross-finger branch is not taken. -/
theorem single_finger_run (press setup : Table) (cs0 pre post : List CChar) (x c : CChar)
    (f : Finger)
    (hrun : ∀ y ∈ pre ++ x :: post ++ [c],
      ((freshState press setup).feedChars cs0).fingerNumber (canonicalize y) = f)
    (hx : (((freshState press setup).feedChars cs0).feedChars pre).dropped x = false)
    (hc : (((freshState press setup).feedChars cs0).feedChars (pre ++ x :: post)).dropped c
      = false) :
    ((((freshState press setup).feedChars cs0).feedChars (pre ++ x :: post)).feedChar c).time =
      (((freshState press setup).feedChars cs0).feedChars (pre ++ x :: post)).time +
        (((freshState press setup).feedChars cs0).feedChars (pre ++ x :: post)).press
          (((freshState press setup).feedChars cs0).feedChars (pre ++ x :: post)).previous
          (canonicalize c) ∧
    (((freshState press setup).feedChars cs0).feedChars (pre ++ x :: post)).crossFinger c
      = false := by
  generalize (freshState press setup).feedChars cs0 = k at hrun hx hc ⊢
  have hfm1 : ∀ y, (k.feedChars pre).fingerNumber y = k.fingerNumber y := by
    intro y; unfold KeyingTime.fingerNumber; rw [feedChars_fingerMap]
  have hfm2 : ∀ y, ((k.feedChars pre).feedChar x).fingerNumber y = k.fingerNumber y := by
    intro y; rw [feedChar_fingerNumber, hfm1]
  have hfm3 : ∀ y, (k.feedChars (pre ++ x :: post)).fingerNumber y = k.fingerNumber y := by
    intro y; unfold KeyingTime.fingerNumber; rw [feedChars_fingerMap]
  have hxf : k.fingerNumber (canonicalize x) = f := hrun x (by simp)
  have hcf : k.fingerNumber (canonicalize c) = f := hrun c (by simp)
  have hx' : (k.feedChars pre).press (k.feedChars pre).previous (canonicalize x) ≠ 0 := by
    simpa [KeyingTime.dropped] using hx
  have hc' : (k.feedChars (pre ++ x :: post)).press (k.feedChars (pre ++ x :: post)).previous
      (canonicalize c) ≠ 0 := by
    simpa [KeyingTime.dropped] using hc
  have h1 : ((k.feedChars pre).feedChar x).previous =
      ((k.feedChars pre).feedChar x).previousCharacters f := by
    have := feedChar_previous_eq_record (k.feedChars pre) x hx'
    rwa [hfm1, hxf] at this
  have hsplit : k.feedChars (pre ++ x :: post) =
      ((k.feedChars pre).feedChar x).feedChars post := by
    rw [feedChars_append]; rfl
  have h2 : (k.feedChars (pre ++ x :: post)).previous =
      (k.feedChars (pre ++ x :: post)).previousCharacters f := by
    rw [hsplit]
    apply feedChars_same_finger _ f post h1
    intro y hy
    rw [hfm2]
    exact hrun y (by simp [hy])
  have h3 : (k.feedChars (pre ++ x :: post)).previous =
      (k.feedChars (pre ++ x :: post)).previousCharacters
        ((k.feedChars (pre ++ x :: post)).fingerNumber (canonicalize c)) := by
    rw [hfm3, hcf]; exact h2
  refine ⟨feedChar_time_same_finger _ c h3 hc', ?_⟩
  simp only [KeyingTime.crossFinger, decide_eq_false_iff_not, not_not]
  exact h3

/-- Witness of C17: from the state initialised from the sample table, feed `s`
and then the run `qa` of finger 0: `q` is not dropped, and `a` adds exactly
`press['q']['a'] = 30`. -/
theorem single_finger_run_witness :
    ((((freshState pressSample (deriveSetup pressSample)).feedChars (cstr "s")).feedChars
        ([] ++ toCChar 'q' :: [])).feedChar (toCChar 'a')).time = 51 ∧
    ((((freshState pressSample (deriveSetup pressSample)).feedChars (cstr "s")).feedChars
        ([] ++ toCChar 'q' :: [])).feedChar (toCChar 'a')).time =
      (((freshState pressSample (deriveSetup pressSample)).feedChars (cstr "s")).feedChars
        ([] ++ toCChar 'q' :: [])).time +
      (((freshState pressSample (deriveSetup pressSample)).feedChars (cstr "s")).feedChars
        ([] ++ toCChar 'q' :: [])).press
        (((freshState pressSample (deriveSetup pressSample)).feedChars (cstr "s")).feedChars
          ([] ++ toCChar 'q' :: [])).previous (canonicalize (toCChar 'a')) :=
  ⟨by decide,
    (single_finger_run pressSample (deriveSetup pressSample) (cstr "s") [] [] (toCChar 'q')
      (toCChar 'a') 0 (by decide) (by decide) (by decide)).1⟩

/-! ## The setup table is populated for same-finger pairs only -/

/-- C15: after `initialize`, a non-zero `setup[c1][c2]` implies that `c1` and
`c2` are distinct and have the same finger number; so `setup[c1][c2]` is zero
whenever `c1 == c2` or the two characters are on different fingers. -/
theorem setup_only_same_finger (press : Table) (c1 c2 : CChar) :
    ((initialized press).setup c1 c2 ≠ 0 →
      c1 ≠ c2 ∧ (initialized press).fingerNumber c1 = (initialized press).fingerNumber c2) ∧
    (c1 = c2 ∨ (initialized press).fingerNumber c1 ≠ (initialized press).fingerNumber c2 →
      (initialized press).setup c1 c2 = 0) := by
  have key : (c1 = c2 ∨ constructFingerMap c1 ≠ constructFingerMap c2) →
      deriveSetup press c1 c2 = 0 := by
    intro h
    apply deriveSetup_of_not_mem
    rcases h with h | h
    · exact Or.inl h
    · right
      intro f hf
      apply h
      rw [fingerMap_of_mem f c1 hf.1, fingerMap_of_mem f c2 hf.2]
  refine ⟨fun hne => ?_, key⟩
  by_contra hcon
  apply hne
  apply key
  by_cases h : c1 = c2
  · exact Or.inl h
  · right
    intro heq
    exact hcon ⟨h, heq⟩

/-- Witness of C15: `setup['q']['a']` derived from the sample table is 10, and
`q` and `a` are distinct characters of finger 0. -/
theorem setup_only_same_finger_witness :
    (initialized pressSample).setup (toCChar 'q') (toCChar 'a') = 10 ∧
    (initialized pressSample).fingerNumber (toCChar 'q') = 0 ∧
    (toCChar 'q' ≠ toCChar 'a' ∧
      (initialized pressSample).fingerNumber (toCChar 'q') =
        (initialized pressSample).fingerNumber (toCChar 'a')) :=
  ⟨by decide, by decide,
    (setup_only_same_finger pressSample (toCChar 'q') (toCChar 'a')).1 (by decide)⟩

/-! ## The reading loop -/

theorem length_dropWhile_le (p : CChar → Bool) (l : List CChar) :
    (l.dropWhile p).length ≤ l.length :=
  (List.dropWhile_sublist p).length_le

theorem extractChar_rest_lt (s : IStream) (c : CChar)
    (h : (s.extractChar c).1.fail = false) :
    (s.extractChar c).1.rest.length < s.rest.length := by
  unfold IStream.extractChar at h ⊢
  by_cases hf : s.fail = true
  · simp [hf] at h
  · simp only [hf, Bool.false_eq_true, if_false] at h ⊢
    have hle := length_dropWhile_le isSpace s.rest
    cases hd : s.rest.dropWhile isSpace with
    | nil => simp [hd] at h
    | cons x r =>
      rw [hd] at hle
      simp only [List.length_cons] at hle ⊢
      omega

theorem extractChar_rest_le (s : IStream) (c : CChar) :
    (s.extractChar c).1.rest.length ≤ s.rest.length := by
  unfold IStream.extractChar
  by_cases hf : s.fail = true
  · simp [hf]
  · simp only [hf, Bool.false_eq_true, if_false]
    have hle := length_dropWhile_le isSpace s.rest
    cases hd : s.rest.dropWhile isSpace with
    | nil => simp
    | cons x r =>
      rw [hd] at hle
      simp only [List.length_cons] at hle ⊢
      omega

theorem extractChar_fail (s : IStream) (c : CChar) (h : s.fail = true) :
    (s.extractChar c).1.fail = true := by
  unfold IStream.extractChar
  simp [h]

theorem extractInt_fail (s : IStream) (v : Int) (h : s.fail = true) :
    (s.extractInt v).1.fail = true := by
  unfold IStream.extractInt
  simp [h]

theorem extractInt_rest_le (s : IStream) (v : Int) :
    (s.extractInt v).1.rest.length ≤ s.rest.length := by
  unfold IStream.extractInt
  by_cases hf : s.fail = true
  · simp [hf]
  · simp only [hf, Bool.false_eq_true, if_false]
    have hle := length_dropWhile_le isSpace s.rest
    cases hd : s.rest.dropWhile isSpace with
    | nil => simp
    | cons x r =>
      rw [hd] at hle
      simp only [List.length_cons] at hle
      by_cases hx : x = toCChar '-' ∨ x = toCChar '+'
      · have h2 := length_dropWhile_le isDigit r
        simp only [if_pos hx]
        split_ifs <;> simp only <;> omega
      · have h2 := length_dropWhile_le isDigit (x :: r)
        simp only [List.length_cons] at h2
        simp only [if_neg hx]
        split_ifs <;> simp only <;> omega

theorem readRecord_rest_lt (s : IStream) (v : Locals) (press : Table)
    (h : (readRecord s v press).1.fail = false) :
    (readRecord s v press).1.rest.length < s.rest.length := by
  unfold readRecord at h ⊢
  simp only at h ⊢
  have h2 : ((s.extractChar v.c1).1.extractChar v.c2).1.fail = false := by
    by_contra hc
    rw [extractInt_fail _ _ (by simpa using hc)] at h
    cases h
  have h1 : (s.extractChar v.c1).1.fail = false := by
    by_contra hc
    rw [extractChar_fail _ _ (by simpa using hc)] at h2
    cases h2
  have l1 := extractChar_rest_lt s v.c1 h1
  have l2 := extractChar_rest_le (s.extractChar v.c1).1 v.c2
  have l3 := extractInt_rest_le ((s.extractChar v.c1).1.extractChar v.c2).1 v.time
  omega

theorem readLoop_fail (n : Nat) (s : IStream) (v : Locals) (press : Table)
    (h : s.rest.length < n) : (readLoop n s v press).1.fail = true := by
  induction n generalizing s v press with
  | zero => omega
  | succ n ih =>
    unfold readLoop
    by_cases hf : s.fail = true
    · simp [hf]
    · simp only [hf, Bool.false_eq_true, if_false]
      by_cases hr : (readRecord s v press).1.fail = true
      · cases n with
        | zero => unfold readLoop; exact hr
        | succ m => unfold readLoop; simp [hr]
      · apply ih
        have := readRecord_rest_lt s v press (by simpa using hr)
        omega

/-- C12 fails on the empty source: the only pass of the loop extracts nothing
and stores `time` in `press[c1][c2]` for the content of the three variables
before the pass, so `initialize` returns `true` with an entry of `press` that
no record names. -/
theorem reading_empty_source (k : KeyingTime) (junk : Locals) :
    (k.initializeFrom junk (some [])).1 = true ∧
    (k.initializeFrom junk (some [])).2.press junk.c1 junk.c2 = junk.time ∧
    (k.initializeFrom ⟨toCChar 'a', toCChar 'b', 7⟩ (some [])).2.press
      (toCChar 'a') (toCChar 'b') = 7 := by
  refine ⟨rfl, ?_, rfl⟩
  show (zeroTable.set junk.c1 junk.c2 junk.time) junk.c1 junk.c2 = junk.time
  rw [Table.set_apply, if_pos ⟨rfl, rfl⟩]

/-- C13 fails on the source `ab 32`, `ab x`: the second record has its two
characters read and its time fails to parse, which stores 0 in `time`; the
loop then assigns `press['a']['b'] = 0`, so the value 32 of the first record
is lost; `initialize` returns `true` and the loop stops there (a later record
`cd 5` is not read). -/
theorem reading_malformed_record (k : KeyingTime) (junk : Locals) :
    (k.initializeFrom junk (some (cstr "ab 32\n"))).2.press (toCChar 'a') (toCChar 'b') = 32 ∧
    (k.initializeFrom junk (some (cstr "ab 32\nab x\n"))).1 = true ∧
    (k.initializeFrom junk (some (cstr "ab 32\nab x\n"))).2.press
      (toCChar 'a') (toCChar 'b') = 0 ∧
    (k.initializeFrom junk (some (cstr "ab 32\nab x\ncd 5\n"))).2.press
      (toCChar 'a') (toCChar 'b') = 0 ∧
    (k.initializeFrom junk (some (cstr "ab 32\nab x\ncd 5\n"))).2.press
      (toCChar 'c') (toCChar 'd') = 0 :=
  ⟨rfl, rfl, rfl, rfl, rfl⟩

/-! ## The finger lookup on bytes -/

/-- C14 fails on a platform with a signed `char`, where `CHAR_MAX` is 127 and
`fingerMap` has 128 elements: the byte 227 is the `char` -29, its index as
`size_t` (of 64 or of 32 bits) is outside the table, and so is the index of
every byte from 128 to 255; the lookup is defined for the bytes 0 to 127 only.
On a platform with an unsigned `char` the index of every byte is within the
`CHAR_MAX + 1 = 256` elements. -/
theorem finger_lookup_out_of_range :
    charMaxOf true = CHAR_MAX ∧
    charOfByte true 227 = -29 ∧
    sizeOfChar 64 (charOfByte true 227) = 18446744073709551587 ∧
    fingerNumberOfByte true 64 constructFingerMap 227 = none ∧
    fingerNumberOfByte true 32 constructFingerMap 227 = none ∧
    (∀ b : Fin 128,
      fingerNumberOfByte true 64 constructFingerMap (Fin.natAdd 128 b) = none) ∧
    (∀ c : CChar,
      fingerNumberOfByte true 64 constructFingerMap (Fin.castLE (by decide) c) =
        some (constructFingerMap c)) ∧
    (∀ b : Fin 256, sizeOfChar 64 (charOfByte false b) < charMaxOf false + 1) := by
  decide

/-! ## The reading loop on well-formed sources -/

theorem readLoop_ends (junk : Locals) (text : List CChar) :
    (readLoop (text.length + 1) { rest := text, fail := false } junk zeroTable).1.fail = true :=
  readLoop_fail _ _ _ _ (Nat.lt_succ_self _)

theorem dropWhile_append_of_all (p : CChar → Bool) (ws tail : List CChar)
    (hws : ∀ c ∈ ws, p c = true) : (ws ++ tail).dropWhile p = tail.dropWhile p := by
  induction ws with
  | nil => rfl
  | cons w ws ih =>
    have hw : p w = true := hws w (List.mem_cons_self w ws)
    rw [List.cons_append, List.dropWhile_cons_of_pos hw]
    exact ih (fun c hc => hws c (List.mem_cons_of_mem w hc))

theorem takeWhile_append_of_all (p : CChar → Bool) (ds tail : List CChar)
    (hds : ∀ c ∈ ds, p c = true) : (ds ++ tail).takeWhile p = ds ++ tail.takeWhile p := by
  induction ds with
  | nil => rfl
  | cons d ds ih =>
    have hd : p d = true := hds d (List.mem_cons_self d ds)
    rw [List.cons_append, List.takeWhile_cons_of_pos hd,
      ih (fun c hc => hds c (List.mem_cons_of_mem d hc))]
    rfl

theorem isDigit_not_sign (d : CChar) (hd : isDigit d = true) :
    ¬ (d = toCChar '-' ∨ d = toCChar '+') ∧ d ≠ toCChar '-' ∧ isSpace d = false := by
  revert d
  decide

theorem readRecord_line (ws tail : List CChar) (r : Record) (v : Locals) (press : Table)
    (hws : ∀ c ∈ ws, isSpace c = true) (hr : r.wellFormed = true) :
    readRecord { rest := ws ++ (r.line ++ tail), fail := false } v press =
      ({ rest := toCChar '\n' :: tail, fail := false },
        { c1 := r.c1, c2 := r.c2, time := (decimalValue r.digits : Int) },
        press.set r.c1 r.c2 (decimalValue r.digits : Int)) := by
  simp only [Record.wellFormed, Bool.and_eq_true, Bool.not_eq_true', decide_eq_true_eq,
    List.all_eq_true] at hr
  obtain ⟨⟨⟨⟨h1, h2⟩, hne⟩, hdig⟩, hmax⟩ := hr
  obtain ⟨d, ds, hds⟩ : ∃ d ds, r.digits = d :: ds := by
    cases hx : r.digits with
    | nil => rw [hx] at hne; simp at hne
    | cons d ds => exact ⟨d, ds, rfl⟩
  have hd : isDigit d = true := hdig d (by rw [hds]; exact List.mem_cons_self d ds)
  obtain ⟨hsign, hminus, hdsp⟩ := isDigit_not_sign d hd
  have hnl : isDigit (toCChar '\n') = false := by decide
  have hsp : isSpace (toCChar ' ') = true := by decide
  have hline : r.line ++ tail =
      r.c1 :: r.c2 :: toCChar ' ' :: d :: (ds ++ toCChar '\n' :: tail) := by
    simp [Record.line, hds]
  have e1 : (ws ++ (r.line ++ tail)).dropWhile isSpace =
      r.c1 :: r.c2 :: toCChar ' ' :: d :: (ds ++ toCChar '\n' :: tail) := by
    rw [dropWhile_append_of_all isSpace ws _ hws, hline,
      List.dropWhile_cons_of_neg (by simp [h1])]
  have e2 : (r.c2 :: toCChar ' ' :: d :: (ds ++ toCChar '\n' :: tail)).dropWhile isSpace =
      r.c2 :: toCChar ' ' :: d :: (ds ++ toCChar '\n' :: tail) :=
    List.dropWhile_cons_of_neg (by simp [h2])
  have e3 : (toCChar ' ' :: d :: (ds ++ toCChar '\n' :: tail)).dropWhile isSpace =
      d :: (ds ++ toCChar '\n' :: tail) := by
    rw [List.dropWhile_cons_of_pos hsp, List.dropWhile_cons_of_neg (by simp [hdsp])]
  have hall : ∀ c ∈ d :: ds, isDigit c = true := by
    intro c hc; rw [← hds] at hc; exact hdig c hc
  have e4 : (d :: (ds ++ toCChar '\n' :: tail)).takeWhile isDigit = d :: ds := by
    have := takeWhile_append_of_all isDigit (d :: ds) (toCChar '\n' :: tail) hall
    rw [List.cons_append] at this
    rw [this, List.takeWhile_cons_of_neg (by simp [hnl])]
    simp
  have e5 : (d :: (ds ++ toCChar '\n' :: tail)).dropWhile isDigit = toCChar '\n' :: tail := by
    have := dropWhile_append_of_all isDigit (d :: ds) (toCChar '\n' :: tail) hall
    rw [List.cons_append] at this
    rw [this, List.dropWhile_cons_of_neg (by simp [hnl])]
  have hmin : ¬ ((decimalValue (d :: ds) : Int) < INT32_MIN) := by
    have : (0 : Int) ≤ (decimalValue (d :: ds) : Int) := Int.ofNat_nonneg _
    unfold INT32_MIN
    omega
  rw [hds] at hmax
  unfold readRecord
  simp only [IStream.extractChar, IStream.extractInt, Bool.false_eq_true, if_false, e1, e2, e3,
    e4, e5, if_neg hsign, if_neg hminus, List.isEmpty_cons, if_neg (not_lt.2 hmax), if_neg hmin,
    hds]

theorem Table.set_set (t : Table) (a b : CChar) (x : Int) :
    (t.set a b x).set a b x = t.set a b x := by
  funext c d
  simp only [Table.set_apply]
  split_ifs <;> rfl

theorem storeRecords_apply (t : Table) (rs : List Record) (a b : CChar) :
    storeRecords t rs a b =
      if rs.any (fun r => decide (r.c1 = a ∧ r.c2 = b)) then lastTime rs a b else t a b := by
  induction rs generalizing t with
  | nil => rfl
  | cons r rs ih =>
    have hstep : storeRecords t (r :: rs) =
        storeRecords (t.set r.c1 r.c2 (decimalValue r.digits : Int)) rs := rfl
    rw [hstep, ih]
    by_cases hany : rs.any (fun r => decide (r.c1 = a ∧ r.c2 = b)) = true
    · simp only [hany, if_true, List.any_cons, Bool.or_true, lastTime]
    · by_cases hr : r.c1 = a ∧ r.c2 = b
      · have hr' : a = r.c1 ∧ b = r.c2 := ⟨hr.1.symm, hr.2.symm⟩
        simp only [hany, Bool.false_eq_true, if_false, List.any_cons, hr, and_self,
          decide_True, Bool.true_or, if_true, lastTime, Table.set_apply, if_pos hr']
      · have hr' : ¬ (a = r.c1 ∧ b = r.c2) := fun h => hr ⟨h.1.symm, h.2.symm⟩
        simp only [hany, Bool.false_eq_true, if_false, List.any_cons, hr, decide_False,
          Bool.or_self, Table.set_apply, if_neg hr']

theorem length_le_sourceOf (rs : List Record) : rs.length ≤ (sourceOf rs).length := by
  induction rs with
  | nil => simp
  | cons r rs ih =>
    simp only [sourceOf, Record.line, List.length_cons, List.length_append]
    omega

theorem readLoop_lines (rs : List Record) (hrs : ∀ r ∈ rs, r.wellFormed = true) (n : Nat)
    (hn : rs.length < n) (v : Locals) (t : Table) (ht : t.set v.c1 v.c2 v.time = t) :
    (readLoop n { rest := toCChar '\n' :: sourceOf rs, fail := false } v t).2 =
      storeRecords t rs := by
  induction rs generalizing n v t with
  | nil =>
    cases n with
    | zero => omega
    | succ m =>
      have hpass : readRecord { rest := toCChar '\n' :: sourceOf [], fail := false } v t =
          ({ rest := [], fail := true }, v, t.set v.c1 v.c2 v.time) := rfl
      unfold readLoop
      simp only [Bool.false_eq_true, if_false, hpass, ht]
      cases m with
      | zero => rfl
      | succ m => rfl
  | cons r rs ih =>
    cases n with
    | zero => omega
    | succ m =>
      have hpass := readRecord_line [toCChar '\n'] (sourceOf rs) r v t
        (by decide) (hrs r (List.mem_cons_self r rs))
      have hrest : toCChar '\n' :: sourceOf (r :: rs) =
          [toCChar '\n'] ++ (r.line ++ sourceOf rs) := rfl
      unfold readLoop
      simp only [Bool.false_eq_true, if_false, hrest, hpass]
      rw [ih (fun x hx => hrs x (List.mem_cons_of_mem r hx)) m
        (by simp only [List.length_cons] at hn; omega) _ _ (Table.set_set _ _ _ _)]
      rfl

/-- On a source that consists of the lines of one or more well-formed records
the reading loop leaves, for every content of its variables before the first
pass, the time of the last record naming a pair in the entry of the pair, and
0 in the entries that no record names.  The pass that fails at the end of the
input repeats the assignment of the last record. -/
theorem readPress_wellFormed (junk : Locals) (r : Record) (rs : List Record)
    (hrs : ∀ x ∈ r :: rs, x.wellFormed = true) (a b : CChar) :
    readPress junk (sourceOf (r :: rs)) a b = lastTime (r :: rs) a b := by
  have hpass := readRecord_line [] (sourceOf rs) r junk zeroTable
    (by simp) (hrs r (List.mem_cons_self r rs))
  have hlen : rs.length < (sourceOf (r :: rs)).length := by
    have := length_le_sourceOf rs
    simp only [sourceOf, Record.line, List.length_cons, List.length_append]
    omega
  have hsrc : sourceOf (r :: rs) = [] ++ (r.line ++ sourceOf rs) := rfl
  have hloop : readPress junk (sourceOf (r :: rs)) =
      storeRecords (zeroTable.set r.c1 r.c2 (decimalValue r.digits : Int)) rs := by
    unfold readPress readLoop
    simp only [Bool.false_eq_true, if_false]
    rw [hsrc] at hlen ⊢
    simp only [hpass]
    exact readLoop_lines rs (fun x hx => hrs x (List.mem_cons_of_mem r hx)) _ hlen _ _
      (Table.set_set _ _ _ _)
  have hstore : storeRecords (zeroTable.set r.c1 r.c2 (decimalValue r.digits : Int)) rs =
      storeRecords zeroTable (r :: rs) := rfl
  rw [hloop, hstore, storeRecords_apply]
  split_ifs with hany
  · rfl
  · simp only [List.any_cons, Bool.or_eq_true, decide_eq_true_eq, not_or] at hany
    have h1 : rs.any (fun r' => decide (r'.c1 = a ∧ r'.c2 = b)) = false := by
      simpa using hany.2
    simp only [lastTime, h1, Bool.false_eq_true, if_false, if_neg hany.1]
    rfl

end KeyingTimeModel
